import Mathlib

/-!
# Verification of the MessagePack-lite serialization core and fixed-layout codec

Shallow embedding of the compact binary serialization layer of the repository:

* `msgpack_lite` — the `Packer`, `Value` and `Unpacker` of
  `src/unnamed/part_009` (file header `benchmark_msgpack.cpp`, the
  emscripten-bind variant);
* `MsgpackPacker` — the packer of `src/unnamed/part_008` (the `extern "C"`
  variant), together with `generateFlatMsgpack`;
* `CStruct` — the fixed-layout struct codec of
  `src/wasm/src/benchmark_cstruct.cpp` (`FlatStruct`, `buildTreeCStruct`,
  `calculateTreeSize`, `generateFlatCStruct`).

Conventions of the embedding:

* Bytes are `Nat` values `< 256`; buffers are `List Nat`.
* C++ `static_cast<uint8_t>(v)` on a signed 64-bit `v` is modelled as
  `(v % 256).toNat` (`Int.emod` is non-negative for a positive modulus, which
  is exactly the twos-complement low byte).  `(v >> (8*k)) & 0xff` on a
  value already reduced modulo `2^(8*w)` is `(m / 2^(8*k)) % 256`.
* Tag tests such as `(b & 0x80) == 0`, `(b & 0xe0) == 0xe0`,
  `(b & 0xf0) == 0x80` are written as the equivalent interval tests
  `b < 0x80`, `0xe0 ≤ b`, `0x80 ≤ b ∧ b < 0x90` (… in the chain order of the
  source, where earlier tests have already excluded the lower ranges).
* `double` values never undergo arithmetic in the codec — both sides only
  `memcpy` the 64 raw bits — so a double is modelled by its IEEE-754 bit
  pattern, a `Nat < 2^64`.
* The C++ `Unpacker` throws `std::runtime_error` when a read would pass the
  end of the buffer; the embedding returns `Except UErr …` with `UErr.bounds`.
  Recursion is driven by an explicit fuel parameter; `UErr.fuelOut` is a pure
  modelling artifact, and the development proves that the chosen initial fuel
  (`2 * length + 1`) can never produce it, so every observable error is a
  bounds error, exactly as in the source.
-/

namespace JsBench


/-- Error type of the embedded unpacker.  `bounds` models the C++
`std::runtime_error("Unexpected end of data")`; `fuelOut` is the fuel
artifact shown unreachable at the fuel used by `unpack`. -/
inductive UErr where
  | bounds
  | fuelOut
deriving DecidableEq

/-- Byte buffers. -/
abbrev Bytes := List Nat

/-! ## Byte readers (the private helpers of `msgpack_lite::Unpacker`) -/
/-- `Unpacker::read_byte`: take one byte or fail with a bounds error. -/
def read_byte : Bytes → Except UErr (Nat × Bytes)
  | [] => .error .bounds
  | b :: rest => .ok (b, rest)

/-- `Unpacker::read_uint16`: two `read_byte` calls, big-endian
(`(b0 << 8) | b1`), failing when fewer than two bytes remain. -/
def read_u16 : Bytes → Except UErr (Nat × Bytes)
  | a :: b :: rest => .ok (a * 256 + b, rest)
  | _ => .error .bounds

/-- `Unpacker::read_uint32`: four `read_byte` calls, big-endian. -/
def read_u32 : Bytes → Except UErr (Nat × Bytes)
  | a :: b :: c :: d :: rest => .ok (a * 16777216 + b * 65536 + c * 256 + d, rest)
  | _ => .error .bounds

/-- The accumulator loop of `Unpacker::read_double`:
`bits = (bits << 8) | read_byte()`, `k` times. -/
def readBE : Nat → Nat → Bytes → Except UErr (Nat × Bytes)
  | 0, acc, bs => .ok (acc, bs)
  | k + 1, acc, bs => do
    let (b, bs) ← read_byte bs
    readBE k (acc * 256 + b) bs

/-- `Unpacker::read_string(length)`: take `length` raw bytes. -/
def readN : Nat → Bytes → Except UErr (Bytes × Bytes)
  | 0, bs => .ok ([], bs)
  | n + 1, bs => do
    let (b, bs) ← read_byte bs
    let (s, bs) ← readN n bs
    .ok (b :: s, bs)

/-- Narrowing a byte to C++ `int8_t` (`static_cast<int8_t>`). -/
def toI8 (x : Nat) : Int := if x < 128 then (x : Int) else (x : Int) - 256

/-- Narrowing a 16-bit value to C++ `int16_t`. -/
def toI16 (x : Nat) : Int := if x < 32768 then (x : Int) else (x : Int) - 65536

/-- Narrowing a 32-bit value to C++ `int32_t`. -/
def toI32 (x : Nat) : Int :=
  if x < 2147483648 then (x : Int) else (x : Int) - 4294967296

/-- Big-endian byte expansion: the loop
`for i = k-1 .. 0: push((n >> (i*8)) & 0xff)`. -/
def beBytes : Nat → Nat → Bytes
  | 0, _ => []
  | k + 1, n => (n / 2 ^ (8 * k)) % 256 :: beBytes k n

/-- Little-endian byte expansion (memory image of a multi-byte field on a
little-endian target, used by the fixed-layout struct codec). -/
def leBytes : Nat → Nat → Bytes
  | 0, _ => []
  | k + 1, n => n % 256 :: leBytes k (n / 256)

/-! ## The value model (`msgpack_lite::Value`)

`Value.data` is `std::variant<nullptr_t, bool, int64_t, double, string,
Array, Map>`; `Array = std::vector<Value>`, `Map = std::map<string, Value>`.
The map is represented by its in-order entry list (`std::map` iterates keys
in strictly increasing lexicographic byte order), encoded here as the
mutually defined `EntryList` kept sorted by `strLt`. -/
mutual
inductive Value where
  | nil : Value
  | bool (b : Bool) : Value
  | int (i : Int) : Value
  | double (bits : Nat) : Value
  | str (s : Bytes) : Value
  | arr (vs : ValueList) : Value
  | map (m : EntryList) : Value

inductive ValueList where
  | nil : ValueList
  | cons (v : Value) (tl : ValueList) : ValueList

inductive EntryList where
  | nil : EntryList
  | cons (k : Bytes) (v : Value) (tl : EntryList) : EntryList
end

/-- Number of elements of a `ValueList` (`std::vector::size`). -/
def ValueList.length : ValueList → Nat
  | .nil => 0
  | .cons _ tl => tl.length + 1

/-- Number of entries of an `EntryList` (`std::map::size`). -/
def EntryList.length : EntryList → Nat
  | .nil => 0
  | .cons _ _ tl => tl.length + 1

/-- Concatenation of entry lists (proof-side helper). -/
def EntryList.append : EntryList → EntryList → EntryList
  | .nil, m => m
  | .cons k v tl, m => .cons k v (tl.append m)

/-- `std::string::operator<`: lexicographic comparison of byte sequences. -/
def strLt : Bytes → Bytes → Bool
  | [], [] => false
  | [], _ :: _ => true
  | _ :: _, [] => false
  | a :: as, b :: bs => if a < b then true else if b < a then false else strLt as bs

/-- `std::map::operator[] = v`: ordered insert-or-assign keeping strictly
increasing key order. -/
def mapInsert : EntryList → Bytes → Value → EntryList
  | .nil, k, v => .cons k v .nil
  | .cons k' v' tl, k, v =>
    if strLt k k' then .cons k v (.cons k' v' tl)
    else if strLt k' k then .cons k' v' (mapInsert tl k v)
    else .cons k' v tl

/-- The `std::map` representation invariant: entry keys strictly increasing. -/
def sortedKeys : EntryList → Bool
  | .nil => true
  | .cons _ _ .nil => true
  | .cons k1 _ (.cons k2 v2 tl) => strLt k1 k2 && sortedKeys (.cons k2 v2 tl)

namespace msgpack_lite

/-! ## `msgpack_lite::Packer` (src/unnamed/part_009, lines 33–111)

Each `pack_*` method appends to the internal buffer; the model returns the
appended bytes, so sequential method calls are list concatenation. -/
/-- `Packer::pack_nil`. -/
def pack_nil : Bytes := [0xc0]

/-- `Packer::pack_true`. -/
def pack_true : Bytes := [0xc3]

/-- `Packer::pack_false`. -/
def pack_false : Bytes := [0xc2]

/-- `Packer::pack_bool`. -/
def pack_bool (v : Bool) : Bytes := if v then [0xc3] else [0xc2]

/-- `Packer::pack_int` — note this variant stops at the 32-bit form: the
final `else` emits tag `0xd2` with the low 32 bits of `v`, whatever `v` is. -/
def pack_int (v : Int) : Bytes :=
  if 0 ≤ v ∧ v ≤ 127 then [(v % 256).toNat]
  else if -32 ≤ v ∧ v < 0 then [(v % 256).toNat]
  else if -128 ≤ v ∧ v ≤ 127 then [0xd0, (v % 256).toNat]
  else if -32768 ≤ v ∧ v ≤ 32767 then 0xd1 :: beBytes 2 (v % 65536).toNat
  else 0xd2 :: beBytes 4 (v % 4294967296).toNat

/-- `Packer::pack_double`: tag `0xcb` then the 8 bits-bytes, most significant
first. -/
def pack_double (bits : Nat) : Bytes := 0xcb :: beBytes 8 bits

/-- `Packer::pack_string` — this variant has no `0xdb` (str32) case: any
length above 255 takes the `0xda` branch, whose 2-byte field keeps only
`len mod 2^16`. -/
def pack_string (s : Bytes) : Bytes :=
  (if s.length ≤ 31 then [0xa0 + s.length]
   else if s.length ≤ 255 then [0xd9, s.length]
   else 0xda :: beBytes 2 (s.length % 65536)) ++ s

/-- `Packer::pack_array_header` — no `0xdd` (array32) case. -/
def pack_array_header (size : Nat) : Bytes :=
  if size ≤ 15 then [0x90 + size]
  else 0xdc :: beBytes 2 (size % 65536)

/-- `Packer::pack_map_header` — no `0xdf` (map32) case. -/
def pack_map_header (size : Nat) : Bytes :=
  if size ≤ 15 then [0x80 + size]
  else 0xde :: beBytes 2 (size % 65536)

mutual
/-- Packing a whole `Value` tree with the per-kind methods: scalar kinds call
the matching `pack_*`; an array emits its header then its elements; a map
emits its header then `pack_string key; pack(value)` per entry, in the
iteration (= key-sorted) order of `std::map`. -/
def packValue : Value → Bytes
  | .nil => pack_nil
  | .bool b => pack_bool b
  | .int v => pack_int v
  | .double bits => pack_double bits
  | .str s => pack_string s
  | .arr vs => pack_array_header vs.length ++ packList vs
  | .map m => pack_map_header m.length ++ packEntries m

/-- Elements of an array, in order. -/
def packList : ValueList → Bytes
  | .nil => []
  | .cons v tl => packValue v ++ packList tl

/-- Entries of a map: key (always `pack_string`) then value. -/
def packEntries : EntryList → Bytes
  | .nil => []
  | .cons k v tl => pack_string k ++ packValue v ++ packEntries tl
end

/-! Well-formedness of a `Value` tree for this packer: the fragment on which
the 32-bit/2-byte size classes are lossless.  Integers must fit `int32`,
string/array/map sizes must fit 16 bits, double bit patterns fit 64 bits,
string elements are bytes, and map entry lists satisfy the `std::map`
strictly-sorted-keys representation invariant. -/
/-- Well-formed byte string of a packable length. -/
def wfStr (s : Bytes) : Bool :=
  decide (s.length ≤ 65535) && s.all (fun c => decide (c < 256))

mutual
def wfValue : Value → Bool
  | .nil => true
  | .bool _ => true
  | .int i => decide (-2147483648 ≤ i) && decide (i ≤ 2147483647)
  | .double bits => decide (bits < 18446744073709551616)
  | .str s => wfStr s
  | .arr vs => decide (vs.length ≤ 65535) && wfList vs
  | .map m => decide (m.length ≤ 65535) && sortedKeys m && wfEntries m

def wfList : ValueList → Bool
  | .nil => true
  | .cons v tl => wfValue v && wfList tl

def wfEntries : EntryList → Bool
  | .nil => true
  | .cons k v tl => wfStr k && wfValue v && wfEntries tl
end

/-! ## `msgpack_lite::Unpacker` (src/unnamed/part_009, lines 181–324)

`unpackF fuel bs` consumes exactly one value from the front of `bs`;
`unpackListF` and `unpackMapF` are the element loops of the array and map
cases.  Every recursive call decrements the fuel, which only bounds the
recursion depth of the model; `unpack` below instantiates it so that it can
never run out (theorem `unpack_ne_fuelOut`). -/
/-- Conversion of an IEEE-754 single bit pattern to the double bit pattern of
the same value — the `case 0xca` path (`float` read, then
`static_cast<double>`).  The cast is exact for every `float`. -/
def f32BitsToF64Bits (x : Nat) : Nat :=
  let s := x / 2147483648
  let e := (x / 8388608) % 256
  let m := x % 8388608
  if e = 255 then s * 2 ^ 63 + 2047 * 2 ^ 52 + m * 2 ^ 29
  else if e = 0 then
    if m = 0 then s * 2 ^ 63
    else s * 2 ^ 63 + (874 + Nat.log2 m) * 2 ^ 52 + m * 2 ^ (52 - Nat.log2 m) % 2 ^ 52
  else s * 2 ^ 63 + (e + 896) * 2 ^ 52 + m * 2 ^ 29

mutual
/-- `Unpacker::unpack`: dispatch on the leading tag byte.  The five range
tests come first, then the exact-match switch; the switch default yields
`Nil`. -/
def unpackF : Nat → Bytes → Except UErr (Value × Bytes)
  | 0, _ => .error .fuelOut
  | fuel + 1, bs => do
    let (b, bs) ← read_byte bs
    -- (b & 0x80) == 0 : positive fixint
    if b < 0x80 then .ok (.int b, bs)
    -- (b & 0xe0) == 0xe0 : negative fixint, value static_cast<int8_t>(b)
    else if 0xe0 ≤ b then .ok (.int ((b : Int) - 256), bs)
    -- (b & 0xf0) == 0x80 : fixmap of (b & 0x0f) entries
    else if b < 0x90 then unpackMapF fuel (b - 0x80) .nil bs
    -- (b & 0xf0) == 0x90 : fixarray of (b & 0x0f) elements
    else if b < 0xa0 then do
      let (vs, bs) ← unpackListF fuel (b - 0x90) bs
      .ok (.arr vs, bs)
    -- (b & 0xe0) == 0xa0 : fixstr of (b & 0x1f) bytes
    else if b < 0xc0 then do
      let (s, bs) ← readN (b - 0xa0) bs
      .ok (.str s, bs)
    else if b = 0xc0 then .ok (.nil, bs)
    else if b = 0xc2 then .ok (.bool false, bs)
    else if b = 0xc3 then .ok (.bool true, bs)
    else if b = 0xcc then do
      let (x, bs) ← read_byte bs
      .ok (.int x, bs)
    else if b = 0xcd then do
      let (x, bs) ← read_u16 bs
      .ok (.int x, bs)
    else if b = 0xce then do
      let (x, bs) ← read_u32 bs
      .ok (.int x, bs)
    else if b = 0xd0 then do
      let (x, bs) ← read_byte bs
      .ok (.int (toI8 x), bs)
    else if b = 0xd1 then do
      let (x, bs) ← read_u16 bs
      .ok (.int (toI16 x), bs)
    else if b = 0xd2 then do
      let (x, bs) ← read_u32 bs
      .ok (.int (toI32 x), bs)
    else if b = 0xca then do
      let (x, bs) ← read_u32 bs
      .ok (.double (f32BitsToF64Bits x), bs)
    else if b = 0xcb then do
      let (x, bs) ← readBE 8 0 bs
      .ok (.double x, bs)
    else if b = 0xd9 then do
      let (n, bs) ← read_byte bs
      let (s, bs) ← readN n bs
      .ok (.str s, bs)
    else if b = 0xda then do
      let (n, bs) ← read_u16 bs
      let (s, bs) ← readN n bs
      .ok (.str s, bs)
    else if b = 0xdc then do
      let (n, bs) ← read_u16 bs
      let (vs, bs) ← unpackListF fuel n bs
      .ok (.arr vs, bs)
    else if b = 0xdd then do
      let (n, bs) ← read_u32 bs
      let (vs, bs) ← unpackListF fuel n bs
      .ok (.arr vs, bs)
    else if b = 0xde then do
      let (n, bs) ← read_u16 bs
      unpackMapF fuel n .nil bs
    else .ok (.nil, bs)

/-- The fixarray/`0xdc`/`0xdd` element loop: `n` recursive `unpack` calls. -/
def unpackListF : Nat → Nat → Bytes → Except UErr (ValueList × Bytes)
  | _, 0, bs => .ok (.nil, bs)
  | 0, _ + 1, _ => .error .fuelOut
  | fuel + 1, n + 1, bs => do
    let (v, bs) ← unpackF fuel bs
    let (vs, bs) ← unpackListF fuel n bs
    .ok (.cons v vs, bs)

/-- The fixmap/`0xde` entry loop: unpack key, unpack value, and only when the
key is a string perform `m[key] = val`. -/
def unpackMapF : Nat → Nat → EntryList → Bytes → Except UErr (Value × Bytes)
  | _, 0, m, bs => .ok (.map m, bs)
  | 0, _ + 1, _, _ => .error .fuelOut
  | fuel + 1, n + 1, m, bs => do
    let (key, bs) ← unpackF fuel bs
    let (val, bs) ← unpackF fuel bs
    let m' := match key with
      | .str s => mapInsert m s val
      | _ => m
    unpackMapF fuel n m' bs
end

/-- `Unpacker(buffer).unpack()`: one value off the front of the buffer,
returning it with the unconsumed tail.  The fuel `2*length+1` is shown never
to run out (`unpack_ne_fuelOut`). -/
def unpack (bs : Bytes) : Except UErr (Value × Bytes) :=
  unpackF (2 * bs.length + 1) bs
end msgpack_lite


/-- All keys of a map fragment are `strLt`-below `k`. -/
def keyAllLt : EntryList → Bytes → Bool
  | .nil, _ => true
  | .cons k' _ tl, k => strLt k' k && keyAllLt tl k

namespace msgpack_lite

/-- Tag bytes with no case in the `switch` (its `default:` branch): among
bytes not claimed by the five range tests these are `0xc1`, `0xc4`–`0xc9`,
`0xcf`, `0xd3`–`0xd8`, `0xdb` and `0xdf`. -/
def unhandledTag (b : Nat) : Bool :=
  decide (b = 0xc1) || (decide (0xc4 ≤ b) && decide (b ≤ 0xc9)) ||
    decide (b = 0xcf) || (decide (0xd3 ≤ b) && decide (b ≤ 0xd8)) ||
    decide (b = 0xdb) || decide (b = 0xdf)
end msgpack_lite


/-! ## `msgpack_lite::Value` accessors (src/unnamed/part_009, lines 133–177)

`as_X` calls `std::get<X>(data)`, which throws `std::bad_variant_access`
when the stored alternative differs — modelled as `Except` with
`AccessError.typeMismatch`.  `operator[]`, `has` and `size` never fail: they
return the static `nil` sentinel (resp. `false`/`0`). -/
inductive AccessError where
  | typeMismatch
deriving DecidableEq

/-- The value of `static_cast<double>(as_int())` is kept symbolic: the codec
never re-reads these bits, so `as_double` only needs to distinguish the raw
bit pattern of a stored double from the numeric cast of a stored int. -/
inductive DoubleCast where
  | bits (n : Nat)
  | ofInt (i : Int)

def Value.is_nil : Value → Bool
  | .nil => true
  | _ => false

def Value.is_bool : Value → Bool
  | .bool _ => true
  | _ => false

def Value.is_int : Value → Bool
  | .int _ => true
  | _ => false

def Value.is_double : Value → Bool
  | .double _ => true
  | _ => false

def Value.is_string : Value → Bool
  | .str _ => true
  | _ => false

def Value.is_array : Value → Bool
  | .arr _ => true
  | _ => false

def Value.is_map : Value → Bool
  | .map _ => true
  | _ => false

/-- `as_bool`: `std::get<bool>` — throws unless a bool is stored. -/
def Value.as_bool : Value → Except AccessError Bool
  | .bool b => .ok b
  | _ => .error .typeMismatch

/-- `as_int`: `std::get<int64_t>`. -/
def Value.as_int : Value → Except AccessError Int
  | .int i => .ok i
  | _ => .error .typeMismatch

/-- `as_double`: returns the int cast when an int is stored, else
`std::get<double>`. -/
def Value.as_double : Value → Except AccessError DoubleCast
  | .int i => .ok (.ofInt i)
  | .double bits => .ok (.bits bits)
  | _ => .error .typeMismatch

/-- `as_string`: `std::get<std::string>`. -/
def Value.as_string : Value → Except AccessError Bytes
  | .str s => .ok s
  | _ => .error .typeMismatch

/-- `as_array`: `std::get<Array>`. -/
def Value.as_array : Value → Except AccessError ValueList
  | .arr vs => .ok vs
  | _ => .error .typeMismatch

/-- `as_map`: `std::get<Map>`. -/
def Value.as_map : Value → Except AccessError EntryList
  | .map m => .ok m
  | _ => .error .typeMismatch

/-- `std::map::find`: the entry whose key is equivalent (neither smaller nor
greater) to the probe, if any. -/
def EntryList.find : EntryList → Bytes → Option Value
  | .nil, _ => none
  | .cons k2 v2 tl, k =>
    if strLt k k2 = false && strLt k2 k = false then some v2 else tl.find k

/-- `has`: `false` off maps, otherwise `count(key) > 0`. -/
def Value.has (v : Value) (key : Bytes) : Bool :=
  match v with
  | .map m => (m.find key).isSome
  | _ => false

/-- `operator[](const std::string&)`: the static `nil` sentinel off maps or
for absent keys, the mapped value otherwise. -/
def Value.getKey (v : Value) (key : Bytes) : Value :=
  match v with
  | .map m =>
    match m.find key with
    | some x => x
    | none => .nil
  | _ => .nil

/-- `std::vector` indexing used by `operator[](size_t)`. -/
def ValueList.get : ValueList → Nat → Option Value
  | .nil, _ => none
  | .cons v _, 0 => some v
  | .cons _ tl, n + 1 => tl.get n

/-- `operator[](size_t)`: the `nil` sentinel off arrays or out of bounds. -/
def Value.getIndex (v : Value) (idx : Nat) : Value :=
  match v with
  | .arr vs =>
    match vs.get idx with
    | some x => x
    | none => .nil
  | _ => .nil

/-- `size()`: element count of arrays/maps, `0` for every scalar. -/
def Value.size : Value → Nat
  | .arr vs => vs.length
  | .map m => m.length
  | _ => 0

namespace MsgpackPacker

/-! ## `MsgpackPacker` (src/unnamed/part_008, lines 23–126)

The second, `extern "C"` packer.  Same layout conventions as
`msgpack_lite.Packer`, but its ladders are complete: `pack_int` falls back to
the tagged 64-bit form `0xd3`, `pack_string` to `0xdb`, `pack_array_header`
to `0xdd` and `pack_map_header` to `0xdf`.  Byte expressions
`(x >> (8*k)) & 0xff` are `beBytes` entries. -/
def pack_nil : Bytes := [0xc0]

def pack_true : Bytes := [0xc3]

def pack_false : Bytes := [0xc2]

def pack_bool (v : Bool) : Bytes := if v then [0xc3] else [0xc2]

def pack_int (v : Int) : Bytes :=
  if 0 ≤ v ∧ v ≤ 127 then [(v % 256).toNat]
  else if -32 ≤ v ∧ v < 0 then [(v % 256).toNat]
  else if -128 ≤ v ∧ v ≤ 127 then [0xd0, (v % 256).toNat]
  else if -32768 ≤ v ∧ v ≤ 32767 then 0xd1 :: beBytes 2 (v % 65536).toNat
  else if -2147483648 ≤ v ∧ v ≤ 2147483647 then
    0xd2 :: beBytes 4 (v % 4294967296).toNat
  else 0xd3 :: beBytes 8 (v % 18446744073709551616).toNat

def pack_double (bits : Nat) : Bytes := 0xcb :: beBytes 8 bits

def pack_string (s : Bytes) : Bytes :=
  (if s.length ≤ 31 then [0xa0 + s.length]
   else if s.length ≤ 255 then [0xd9, s.length]
   else if s.length ≤ 65535 then 0xda :: beBytes 2 s.length
   else 0xdb :: beBytes 4 s.length) ++ s

def pack_array_header (size : Nat) : Bytes :=
  if size ≤ 15 then [0x90 + size]
  else if size ≤ 65535 then 0xdc :: beBytes 2 size
  else 0xdd :: beBytes 4 size

def pack_map_header (size : Nat) : Bytes :=
  if size ≤ 15 then [0x80 + size]
  else if size ≤ 65535 then 0xde :: beBytes 2 size
  else 0xdf :: beBytes 4 size
end MsgpackPacker


/-- The IEEE-754 64-bit pattern of the literal `3.14159265359`
(`0x400921FB54442EEA`; big-endian bytes 40 09 21 FB 54 44 2E EA). -/
def piBits : Nat := 0x400921FB54442EEA

/-- `generateFlatMsgpack` (src/unnamed/part_008, lines 138–156): a 4-entry
map `{id: 42, name: nameLen times the byte 120 (ASCII x), value: 3.14159265359, flag: true}`, packed
with the `MsgpackPacker` methods in that order.  Key bytes are the ASCII of
`"id"`, `"name"`, `"value"`, `"flag"`. -/
def generateFlatMsgpack (nameLen : Nat) : Bytes :=
  MsgpackPacker.pack_map_header 4 ++
  (MsgpackPacker.pack_string [105, 100] ++ MsgpackPacker.pack_int 42) ++
  (MsgpackPacker.pack_string [110, 97, 109, 101] ++
    MsgpackPacker.pack_string (List.replicate nameLen 120)) ++
  (MsgpackPacker.pack_string [118, 97, 108, 117, 101] ++
    MsgpackPacker.pack_double piBits) ++
  (MsgpackPacker.pack_string [102, 108, 97, 103] ++ MsgpackPacker.pack_true)

namespace CStruct

/-! ## The fixed-layout struct codec (src/wasm/src/benchmark_cstruct.cpp)

`#pragma pack(1)` structs on a little-endian target: a field of width `w` at
offset `o` occupies bytes `o..o+w-1`, least significant first, with no
padding.  `sizeof(FlatStruct) = 4 + 8 + 1 + 4 = 17`,
`sizeof(TreeNodeHeader) = 3 * 4 = 12`. -/
/-- `buildTreeCStruct` (lines 243–260): writes `depth`, `breadth`,
`childrenCount` as packed little-endian `int32_t`s, then recursively writes
`breadth` children when `depth > 0`.  The model returns the bytes written;
the C++ return value (the offset) is their length. -/
def buildTreeCStruct : Nat → Nat → Bytes
  | 0, breadth => leBytes 4 0 ++ leBytes 4 breadth ++ leBytes 4 0
  | depth + 1, breadth =>
    leBytes 4 (depth + 1) ++ leBytes 4 breadth ++ leBytes 4 breadth ++
      (List.replicate breadth (buildTreeCStruct depth breadth)).flatten

/-- `calculateTreeSize` (lines 265–273): `sizeof(TreeNodeHeader)` plus, when
`depth > 0`, `breadth` recursive sizes. -/
def calculateTreeSize : Nat → Nat → Nat
  | 0, _ => 12
  | depth + 1, breadth =>
    12 + (List.replicate breadth (calculateTreeSize depth breadth)).sum

/-- A store into the scratch buffer: `memcpy(buf + off, bytes, len)`. -/
def writeBytes (buf : Bytes) (off : Nat) (bytes : Bytes) : Bytes :=
  buf.take off ++ bytes ++ buf.drop (off + bytes.length)

/-- `generateFlatCStruct` (lines 106–128): resize the scratch buffer to
`sizeof(FlatStruct) + nameLen = 17 + nameLen` (new vector cells are
zero-initialised), store the packed fields `id = 42` at offset 0,
`value = 3.14159265359` at offset 4, `flag = 1` at offset 12,
`nameLen` at offset 13, then `memset` the name region with byte 120 (ASCII x) at offset
17.  Returns the buffer and the recorded `g_last_size`. -/
def generateFlatCStruct (nameLen : Nat) : Bytes × Nat :=
  let totalSize := 17 + nameLen
  let buf := List.replicate totalSize 0
  let buf := writeBytes buf 0 (leBytes 4 42)
  let buf := writeBytes buf 4 (leBytes 8 piBits)
  let buf := writeBytes buf 12 [1]
  let buf := writeBytes buf 13 (leBytes 4 nameLen)
  let buf := writeBytes buf 17 (List.replicate nameLen 120)
  (buf, totalSize)

/-- `getLastCStructLength` after a `generateFlatCStruct(nameLen)` call. -/
def getLastCStructLength (nameLen : Nat) : Nat :=
  (generateFlatCStruct nameLen).2
end CStruct


/-- Proof-side constructor of an n-element array value. -/
def vlReplicate : Nat → Value → ValueList
  | 0, _ => .nil
  | n + 1, v => .cons v (vlReplicate n v)

/-- Narrowing a 64-bit value to C++ `int64_t`. -/
def toI64 (x : Nat) : Int :=
  if x < 9223372036854775808 then (x : Int)
  else (x : Int) - 18446744073709551616

/-- Reference decoder for the integer encodings the packers emit (positive
and negative fixint and the signed `0xd0`–`0xd3` forms): formalises
"the encoding losslessly represents the value". -/
def decodeIntEnc : Bytes → Option Int
  | [b] =>
    if b < 128 then some ((b : Int))
    else if 224 ≤ b && b ≤ 255 then some ((b : Int) - 256)
    else none
  | [208, x] => some (toI8 x)
  | [209, a, b] => some (toI16 (a * 256 + b))
  | [210, a, b, c, d] =>
    some (toI32 (a * 16777216 + b * 65536 + c * 256 + d))
  | [211, a, b, c, d, e, f, g, h] =>
    some (toI64 (((((((a * 256 + b) * 256 + c) * 256 + d) * 256 + e) * 256 +
      f) * 256 + g) * 256 + h))
  | _ => none

/-! ## Theorems -/

/-- Error propagation through sequenced reads (`bind` of the `Except` monad);
a failing read aborts the whole decode, like the C++ exception. -/
@[simp] theorem bind_ok_eq {ε α β : Type} (a : α) (f : α → Except ε β) :
    (Except.ok a >>= f) = f a := rfl

@[simp] theorem bind_error_eq {ε α β : Type} (e : ε) (f : α → Except ε β) :
    ((Except.error e : Except ε α) >>= f) = Except.error e := rfl

@[simp] theorem beBytes_length (k n : Nat) : (beBytes k n).length = k := by
  induction k generalizing n with
  | zero => rfl
  | succ k ih => simp [beBytes, ih]

@[simp] theorem leBytes_length (k n : Nat) : (leBytes k n).length = k := by
  induction k generalizing n with
  | zero => rfl
  | succ k ih => simp [leBytes, ih]

/-! ## Lemmas about the byte readers -/
@[simp] theorem read_byte_nil : read_byte [] = .error .bounds := rfl

@[simp] theorem read_byte_cons (b : Nat) (bs : Bytes) :
    read_byte (b :: bs) = .ok (b, bs) := rfl

/-- Successful reads are unaffected by appending bytes after the buffer. -/
theorem read_byte_extend {bs : Bytes} {b : Nat} {r : Bytes}
    (h : read_byte bs = .ok (b, r)) (t : Bytes) :
    read_byte (bs ++ t) = .ok (b, r ++ t) := by
  cases bs with
  | nil => simp [read_byte] at h
  | cons x xs => simp [read_byte] at h ⊢; exact ⟨h.1, by rw [h.2]⟩

theorem read_byte_length {bs : Bytes} {b : Nat} {r : Bytes}
    (h : read_byte bs = .ok (b, r)) : r.length < bs.length := by
  cases bs with
  | nil => simp [read_byte] at h
  | cons x xs => simp [read_byte] at h; simp [← h.2]

theorem read_u16_extend {bs : Bytes} {x : Nat} {r : Bytes}
    (h : read_u16 bs = .ok (x, r)) (t : Bytes) :
    read_u16 (bs ++ t) = .ok (x, r ++ t) := by
  match bs with
  | [] => simp [read_u16] at h
  | [a] => simp [read_u16] at h
  | a :: b :: bs =>
    simp only [read_u16, Except.ok.injEq, Prod.mk.injEq] at h
    obtain ⟨h1, h2⟩ := h
    subst h1; subst h2
    rfl

theorem read_u16_length {bs : Bytes} {x : Nat} {r : Bytes}
    (h : read_u16 bs = .ok (x, r)) : r.length + 2 ≤ bs.length := by
  match bs with
  | [] => simp [read_u16] at h
  | [a] => simp [read_u16] at h
  | a :: b :: bs =>
    simp only [read_u16, Except.ok.injEq, Prod.mk.injEq] at h
    simp [← h.2]

theorem read_u32_extend {bs : Bytes} {x : Nat} {r : Bytes}
    (h : read_u32 bs = .ok (x, r)) (t : Bytes) :
    read_u32 (bs ++ t) = .ok (x, r ++ t) := by
  match bs with
  | [] => simp [read_u32] at h
  | [a] => simp [read_u32] at h
  | [a, b] => simp [read_u32] at h
  | [a, b, c] => simp [read_u32] at h
  | a :: b :: c :: d :: bs =>
    simp only [read_u32, Except.ok.injEq, Prod.mk.injEq] at h
    obtain ⟨h1, h2⟩ := h
    subst h1; subst h2
    rfl

theorem read_u32_length {bs : Bytes} {x : Nat} {r : Bytes}
    (h : read_u32 bs = .ok (x, r)) : r.length + 4 ≤ bs.length := by
  match bs with
  | [] => simp [read_u32] at h
  | [a] => simp [read_u32] at h
  | [a, b] => simp [read_u32] at h
  | [a, b, c] => simp [read_u32] at h
  | a :: b :: c :: d :: bs =>
    simp only [read_u32, Except.ok.injEq, Prod.mk.injEq] at h
    simp [← h.2]

theorem readBE_extend {k acc : Nat} {bs : Bytes} {x : Nat} {r : Bytes}
    (h : readBE k acc bs = .ok (x, r)) (t : Bytes) :
    readBE k acc (bs ++ t) = .ok (x, r ++ t) := by
  induction k generalizing acc bs with
  | zero =>
    simp only [readBE, Except.ok.injEq, Prod.mk.injEq] at h
    obtain ⟨h1, h2⟩ := h
    subst h1; subst h2
    rfl
  | succ k ih =>
    cases bs with
    | nil => simp [readBE] at h
    | cons b bs =>
      simp only [readBE, List.cons_append, read_byte_cons, bind_ok_eq] at h ⊢
      exact ih h

theorem readBE_length {k acc : Nat} {bs : Bytes} {x : Nat} {r : Bytes}
    (h : readBE k acc bs = .ok (x, r)) : r.length + k ≤ bs.length := by
  induction k generalizing acc bs with
  | zero =>
    simp only [readBE, Except.ok.injEq, Prod.mk.injEq] at h
    simp [← h.2]
  | succ k ih =>
    cases bs with
    | nil => simp [readBE] at h
    | cons b bs =>
      simp only [readBE, read_byte_cons, bind_ok_eq] at h
      have := ih h
      simp only [List.length_cons]
      omega

theorem readN_extend {n : Nat} {bs : Bytes} {s : Bytes} {r : Bytes}
    (h : readN n bs = .ok (s, r)) (t : Bytes) :
    readN n (bs ++ t) = .ok (s, r ++ t) := by
  induction n generalizing bs s with
  | zero =>
    simp only [readN, Except.ok.injEq, Prod.mk.injEq] at h
    obtain ⟨h1, h2⟩ := h
    subst h1; subst h2
    rfl
  | succ n ih =>
    cases bs with
    | nil => simp [readN] at h
    | cons b bs =>
      simp only [readN, List.cons_append, read_byte_cons, bind_ok_eq] at h ⊢
      cases hrec : readN n bs with
      | error e => rw [hrec] at h; simp at h
      | ok p =>
        obtain ⟨s', r'⟩ := p
        rw [hrec] at h
        simp only [bind_ok_eq, Except.ok.injEq, Prod.mk.injEq] at h
        obtain ⟨h1, h2⟩ := h
        subst h2
        rw [ih hrec]
        simp [← h1]

theorem readN_length {n : Nat} {bs : Bytes} {s : Bytes} {r : Bytes}
    (h : readN n bs = .ok (s, r)) : r.length + n ≤ bs.length := by
  induction n generalizing bs s with
  | zero =>
    simp only [readN, Except.ok.injEq, Prod.mk.injEq] at h
    simp [← h.2]
  | succ n ih =>
    cases bs with
    | nil => simp [readN] at h
    | cons b bs =>
      simp only [readN, read_byte_cons, bind_ok_eq] at h
      cases hrec : readN n bs with
      | error e => rw [hrec] at h; simp at h
      | ok p =>
        obtain ⟨s', r'⟩ := p
        rw [hrec] at h
        simp only [bind_ok_eq, Except.ok.injEq, Prod.mk.injEq] at h
        obtain ⟨h1, h2⟩ := h
        subst h2
        have := ih hrec
        simp only [List.length_cons]
        omega

/-- Reading back exactly the bytes of a string leaves the tail untouched. -/
theorem readN_append (s r : Bytes) : readN s.length (s ++ r) = .ok (s, r) := by
  induction s with
  | nil => simp [readN]
  | cons b s ih => simp [readN, ih]

/-- Reading a 16-bit big-endian field back from its two packed bytes. -/
theorem read_u16_beBytes {m : Nat} (h : m < 65536) (r : Bytes) :
    read_u16 (beBytes 2 m ++ r) = .ok (m, r) := by
  simp only [beBytes]
  norm_num [read_u16]
  omega

/-- Reading a 32-bit big-endian field back from its four packed bytes. -/
theorem read_u32_beBytes {m : Nat} (h : m < 4294967296) (r : Bytes) :
    read_u32 (beBytes 4 m ++ r) = .ok (m, r) := by
  simp only [beBytes]
  norm_num [read_u32]
  omega

/-- Reading a 64-bit big-endian field back from its eight packed bytes
(the `read_double` loop against the `pack_double` loop). -/
theorem readBE8_beBytes {m : Nat} (h : m < 18446744073709551616) (r : Bytes) :
    readBE 8 0 (beBytes 8 m ++ r) = .ok (m, r) := by
  simp only [beBytes]
  norm_num [readBE, read_byte]
  omega

/-! ## Lemmas about the lexicographic string order and ordered map insert -/
theorem strLt_irrefl (s : Bytes) : strLt s s = false := by
  induction s with
  | nil => rfl
  | cons a as ih => simp [strLt, ih]

theorem strLt_asymm {a b : Bytes} (h : strLt a b = true) : strLt b a = false := by
  induction a generalizing b with
  | nil => cases b with
    | nil => simpa [strLt] using h
    | cons x xs => simp [strLt]
  | cons x xs ih =>
    cases b with
    | nil => simp [strLt] at h
    | cons y ys =>
      simp only [strLt] at h ⊢
      rcases Nat.lt_trichotomy x y with hlt | heq | hgt
      · simp [hlt, Nat.lt_asymm hlt, Nat.ne_of_lt hlt]
      · subst heq
        simp only [Nat.lt_irrefl, if_false] at h ⊢
        exact ih h
      · simp [hgt, Nat.lt_asymm hgt] at h

theorem strLt_trans {a b c : Bytes} (hab : strLt a b = true)
    (hbc : strLt b c = true) : strLt a c = true := by
  induction a generalizing b c with
  | nil => cases c with
    | nil =>
      cases b with
      | nil => simp [strLt] at hab
      | cons y ys => simp [strLt] at hbc
    | cons z zs => simp [strLt]
  | cons x xs ih =>
    cases b with
    | nil => simp [strLt] at hab
    | cons y ys =>
      cases c with
      | nil => simp [strLt] at hbc
      | cons z zs =>
        simp only [strLt] at hab hbc ⊢
        rcases Nat.lt_trichotomy x y with hxy | hxy | hxy
        · rcases Nat.lt_trichotomy y z with hyz | hyz | hyz
          · simp [Nat.lt_trans hxy hyz]
          · subst hyz; simp [hxy]
          · simp [hyz, Nat.lt_asymm hyz] at hbc
        · subst hxy
          rcases Nat.lt_trichotomy x z with hxz | hxz | hxz
          · simp [hxz]
          · subst hxz
            simp only [Nat.lt_irrefl, if_false] at hab hbc ⊢
            exact ih hab hbc
          · simp [hxz, Nat.lt_asymm hxz] at hbc
        · simp [hxy, Nat.lt_asymm hxy] at hab

theorem keyAllLt_mono : ∀ (m : EntryList) {k k2 : Bytes},
    keyAllLt m k = true → strLt k k2 = true → keyAllLt m k2 = true
  | .nil, _, _, _, _ => rfl
  | .cons k' _ tl, k, k2, h, hk => by
    simp only [keyAllLt, Bool.and_eq_true] at h ⊢
    exact ⟨strLt_trans h.1 hk, keyAllLt_mono tl h.2 hk⟩

theorem keyAllLt_append_single : ∀ (m : EntryList) {k k2 : Bytes} {v : Value},
    keyAllLt m k2 = true → strLt k k2 = true →
    keyAllLt (m.append (.cons k v .nil)) k2 = true
  | .nil, _, _, _, _, hk => by simpa [EntryList.append, keyAllLt] using hk
  | .cons k' v' tl, k, k2, v, h, hk => by
    simp only [keyAllLt, Bool.and_eq_true] at h
    simp only [EntryList.append, keyAllLt, Bool.and_eq_true]
    exact ⟨h.1, keyAllLt_append_single tl h.2 hk⟩

/-- Inserting a key above every key of a sorted fragment appends the entry. -/
theorem mapInsert_append : ∀ (m : EntryList) {k : Bytes} {v : Value},
    keyAllLt m k = true → mapInsert m k v = m.append (.cons k v .nil)
  | .nil, _, _, _ => rfl
  | .cons k' v' tl, k, v, h => by
    simp only [keyAllLt, Bool.and_eq_true] at h
    simp only [mapInsert, EntryList.append, strLt_asymm h.1, h.1, if_true,
      Bool.false_eq_true, if_false]
    rw [mapInsert_append tl h.2]

theorem EntryList.append_cons : ∀ (m0 : EntryList) (k : Bytes) (v : Value)
    (tl : EntryList),
    (m0.append (.cons k v .nil)).append tl = m0.append (.cons k v tl)
  | .nil, _, _, _ => rfl
  | .cons k' v' m0, k, v, tl => by
    simp only [EntryList.append, EntryList.append_cons m0 k v tl]

theorem sortedKeys_tail {k : Bytes} {v : Value} {m : EntryList}
    (h : sortedKeys (.cons k v m) = true) : sortedKeys m = true := by
  cases m with
  | nil => rfl
  | cons k2 v2 tl =>
    simp only [sortedKeys, Bool.and_eq_true] at h
    exact h.2

theorem sortedKeys_head_lt {k1 : Bytes} {v1 : Value} {k2 : Bytes} {v2 : Value}
    {tl : EntryList}
    (h : sortedKeys (.cons k1 v1 (.cons k2 v2 tl)) = true) :
    strLt k1 k2 = true := by
  simp only [sortedKeys, Bool.and_eq_true] at h
  exact h.1

theorem EntryList.append_nil : ∀ (m : EntryList), m.append .nil = m
  | .nil => rfl
  | .cons k v tl => by simp only [EntryList.append, EntryList.append_nil tl]

namespace msgpack_lite

/-! ## Round-trip: `unpack (pack v)` recovers `v` on the well-formed fragment -/
/-- Every packed value starts with at least a tag byte. -/
theorem packValue_length_pos (v : Value) : 1 ≤ (packValue v).length := by
  cases v with
  | nil => simp [packValue, pack_nil]
  | bool b => cases b <;> simp [packValue, pack_bool]
  | int i =>
    simp only [packValue, pack_int]
    split_ifs <;> simp
  | double bits => simp [packValue, pack_double]
  | str s =>
    simp only [packValue, pack_string]
    split_ifs <;> simp
  | arr vs =>
    simp only [packValue, pack_array_header]
    split_ifs <;> simp
  | map m =>
    simp only [packValue, pack_map_header]
    split_ifs <;> simp

/-- A packed string also starts with at least a tag byte. -/
theorem pack_string_length_pos (s : Bytes) : 1 ≤ (pack_string s).length := by
  simp only [pack_string]
  split_ifs <;> simp

/-- `int8_t` narrowing undoes the `uint8_t` truncation on the `int8` range. -/
theorem toI8_emod {i : Int} (hlo : -128 ≤ i) (hhi : i ≤ 127) :
    toI8 (i % 256).toNat = i := by
  simp only [toI8]
  split_ifs <;> omega

/-- `int16_t` narrowing undoes the 16-bit truncation on the `int16` range. -/
theorem toI16_emod {i : Int} (hlo : -32768 ≤ i) (hhi : i ≤ 32767) :
    toI16 (i % 65536).toNat = i := by
  simp only [toI16]
  split_ifs <;> omega

/-- `int32_t` narrowing undoes the 32-bit truncation on the `int32` range. -/
theorem toI32_emod {i : Int} (hlo : -2147483648 ≤ i) (hhi : i ≤ 2147483647) :
    toI32 (i % 4294967296).toNat = i := by
  simp only [toI32]
  split_ifs <;> omega

/-- Unfolding of the array-element loop at count zero. -/
@[simp] theorem unpackListF_zero (fuel : Nat) (bs : Bytes) :
    unpackListF fuel 0 bs = .ok (.nil, bs) := by
  cases fuel <;> rfl

/-- Unfolding of the map-entry loop at count zero. -/
@[simp] theorem unpackMapF_zero (fuel : Nat) (m : EntryList) (bs : Bytes) :
    unpackMapF fuel 0 m bs = .ok (.map m, bs) := by
  cases fuel <;> rfl

/-- One step of the array-element loop. -/
theorem unpackListF_succ (fuel n : Nat) (bs : Bytes) :
    unpackListF (fuel + 1) (n + 1) bs = (do
      let (v, bs) ← unpackF fuel bs
      let (vs, bs) ← unpackListF fuel n bs
      .ok (.cons v vs, bs)) := rfl

/-- One step of the map-entry loop. -/
theorem unpackMapF_succ (fuel n : Nat) (m : EntryList) (bs : Bytes) :
    unpackMapF (fuel + 1) (n + 1) m bs = (do
      let (key, bs) ← unpackF fuel bs
      let (val, bs) ← unpackF fuel bs
      let m' := match key with
        | .str s => mapInsert m s val
        | _ => m
      unpackMapF fuel n m' bs) := rfl

mutual
/-- Unpacking the packed bytes of a well-formed value, followed by any tail,
returns exactly that value and leaves the tail unconsumed — for any fuel at
least twice the packed length. -/
theorem unpackF_packValue : ∀ (fuel : Nat) (v : Value) (rest : Bytes),
    wfValue v = true → 2 * (packValue v).length ≤ fuel + 1 →
    unpackF fuel (packValue v ++ rest) = .ok (v, rest)
  | 0, v, _, _, hfuel => by
    exfalso
    have := packValue_length_pos v
    omega
  | fuel + 1, v, rest, hwf, hfuel => by
    cases v with
    | nil =>
      simp [packValue, pack_nil, unpackF]
    | bool b =>
      cases b <;> simp [packValue, pack_bool, unpackF]
    | int i =>
      simp only [wfValue, Bool.and_eq_true, decide_eq_true_eq] at hwf
      obtain ⟨hlo, hhi⟩ := hwf
      simp only [packValue, pack_int] at hfuel ⊢
      split_ifs with h1 h2 h3 h4
      · -- positive fixint
        simp only [List.cons_append, List.nil_append, unpackF, read_byte_cons,
          bind_ok_eq]
        rw [if_pos (by omega)]
        simp only [Except.ok.injEq, Prod.mk.injEq, Value.int.injEq, and_true]
        omega
      · -- negative fixint
        simp only [List.cons_append, List.nil_append, unpackF, read_byte_cons,
          bind_ok_eq]
        rw [if_neg (by omega), if_pos (by omega)]
        simp only [Except.ok.injEq, Prod.mk.injEq, Value.int.injEq, and_true]
        omega
      · -- 0xd0 int8
        simp only [List.cons_append, List.nil_append, unpackF, read_byte_cons,
          bind_ok_eq]
        norm_num
        rw [toI8_emod (by omega) (by omega)]
      · -- 0xd1 int16
        simp only [List.cons_append, unpackF, read_byte_cons, bind_ok_eq]
        norm_num
        rw [read_u16_beBytes (by omega), bind_ok_eq]
        rw [toI16_emod (by omega) (by omega)]
      · -- 0xd2 int32
        simp only [List.cons_append, unpackF, read_byte_cons, bind_ok_eq]
        norm_num
        rw [read_u32_beBytes (by omega), bind_ok_eq]
        rw [toI32_emod (by omega) (by omega)]
    | double bits =>
      simp only [wfValue, decide_eq_true_eq] at hwf
      simp only [packValue, pack_double, List.cons_append, unpackF,
        read_byte_cons, bind_ok_eq]
      norm_num
      rw [readBE8_beBytes hwf, bind_ok_eq]
    | str s =>
      simp only [wfValue, wfStr, Bool.and_eq_true, decide_eq_true_eq] at hwf
      obtain ⟨hlen, _⟩ := hwf
      simp only [packValue, pack_string] at hfuel ⊢
      split_ifs with h1 h2
      · -- fixstr
        simp only [List.cons_append, List.nil_append, List.append_assoc,
          unpackF, read_byte_cons, bind_ok_eq]
        rw [if_neg (by omega), if_neg (by omega), if_neg (by omega),
          if_neg (by omega), if_pos (by omega)]
        have hb : 0xa0 + s.length - 0xa0 = s.length := by omega
        rw [hb, readN_append, bind_ok_eq]
      · -- 0xd9 str8
        simp only [List.cons_append, List.nil_append, List.append_assoc,
          unpackF, read_byte_cons, bind_ok_eq]
        norm_num
        rw [readN_append, bind_ok_eq]
      · -- 0xda str16 (length stored mod 2^16; here length ≤ 65535)
        have hmod : s.length % 65536 = s.length := by omega
        simp only [List.cons_append, List.append_assoc, unpackF,
          read_byte_cons, bind_ok_eq]
        norm_num
        rw [read_u16_beBytes (by omega), bind_ok_eq, hmod, readN_append,
          bind_ok_eq]
    | arr vs =>
      simp only [wfValue, Bool.and_eq_true, decide_eq_true_eq] at hwf
      obtain ⟨hlen, hwl⟩ := hwf
      simp only [packValue, pack_array_header] at hfuel ⊢
      split_ifs at hfuel ⊢ with h1
      · -- fixarray
        simp only [List.length_append, List.length_cons, List.length_nil] at hfuel
        simp only [List.cons_append, List.nil_append, List.append_assoc,
          unpackF, read_byte_cons, bind_ok_eq]
        rw [if_neg (by omega), if_neg (by omega), if_neg (by omega),
          if_pos (by omega)]
        have hb : 0x90 + vs.length - 0x90 = vs.length := by omega
        rw [hb, unpackListF_packList fuel vs (by omega) hwl, bind_ok_eq]
      · -- 0xdc array16
        simp only [List.length_append, List.length_cons, beBytes_length] at hfuel
        have hmod : vs.length % 65536 = vs.length := by omega
        simp only [List.cons_append, List.append_assoc, unpackF,
          read_byte_cons, bind_ok_eq]
        norm_num
        rw [read_u16_beBytes (by omega), bind_ok_eq, hmod,
          unpackListF_packList fuel vs (by omega) hwl, bind_ok_eq]
    | map m =>
      simp only [wfValue, Bool.and_eq_true, decide_eq_true_eq] at hwf
      obtain ⟨⟨hlen, hsort⟩, hwm⟩ := hwf
      simp only [packValue, pack_map_header] at hfuel ⊢
      split_ifs at hfuel ⊢ with h1
      · -- fixmap
        simp only [List.length_append, List.length_cons, List.length_nil] at hfuel
        simp only [List.cons_append, List.nil_append, List.append_assoc,
          unpackF, read_byte_cons, bind_ok_eq]
        rw [if_neg (by omega), if_neg (by omega), if_pos (by omega)]
        have hb : 0x80 + m.length - 0x80 = m.length := by omega
        rw [hb, unpackMapF_packEntries fuel m .nil rest hwm hsort
          (fun _ _ _ _ => rfl) (by omega)]
        rfl
      · -- 0xde map16
        simp only [List.length_append, List.length_cons, beBytes_length] at hfuel
        have hmod : m.length % 65536 = m.length := by omega
        simp only [List.cons_append, List.append_assoc, unpackF,
          read_byte_cons, bind_ok_eq]
        norm_num
        rw [read_u16_beBytes (by omega), bind_ok_eq, hmod,
          unpackMapF_packEntries fuel m .nil rest hwm hsort
            (fun _ _ _ _ => rfl) (by omega)]
        rfl

/-- The array element loop recovers each element in order. -/
theorem unpackListF_packList : ∀ (fuel : Nat) (vs : ValueList) {rest : Bytes},
    2 * (packList vs).length ≤ fuel → wfList vs = true →
    unpackListF fuel vs.length (packList vs ++ rest) = .ok (vs, rest)
  | 0, vs, rest, hfuel, _ => by
    cases vs with
    | nil => simp [ValueList.length, packList]
    | cons v tl =>
      exfalso
      have h1 := packValue_length_pos v
      simp only [packList, List.length_append] at hfuel
      omega
  | fuel + 1, vs, rest, hfuel, hwf => by
    cases vs with
    | nil => simp [ValueList.length, packList]
    | cons v tl =>
      simp only [wfList, Bool.and_eq_true] at hwf
      obtain ⟨hwv, hwtl⟩ := hwf
      have h1 := packValue_length_pos v
      simp only [packList, List.length_append] at hfuel
      simp only [ValueList.length, packList, List.append_assoc,
        unpackListF_succ]
      rw [unpackF_packValue fuel v (packList tl ++ rest) hwv (by omega),
        bind_ok_eq,
        unpackListF_packList fuel tl (by omega) hwtl, bind_ok_eq]

/-- The map entry loop: with every already-inserted key below every remaining
key, inserting the sorted remaining entries one by one appends them. -/
theorem unpackMapF_packEntries : ∀ (fuel : Nat) (m m0 : EntryList)
    (rest : Bytes),
    wfEntries m = true → sortedKeys m = true →
    (∀ k v tl, m = .cons k v tl → keyAllLt m0 k = true) →
    2 * (packEntries m).length ≤ fuel →
    unpackMapF fuel m.length m0 (packEntries m ++ rest) =
      .ok (.map (m0.append m), rest)
  | 0, m, m0, rest, _, _, _, hfuel => by
    cases m with
    | nil => simp [EntryList.length, packEntries, EntryList.append_nil]
    | cons k v tl =>
      exfalso
      have h1 := pack_string_length_pos k
      have h2 := packValue_length_pos v
      simp only [packEntries, List.length_append] at hfuel
      omega
  | fuel + 1, m, m0, rest, hwf, hsort, hsep, hfuel => by
    cases m with
    | nil => simp [EntryList.length, packEntries, EntryList.append_nil]
    | cons k v tl =>
      simp only [wfEntries, Bool.and_eq_true] at hwf
      obtain ⟨⟨hwk, hwv⟩, hwtl⟩ := hwf
      have h1 := pack_string_length_pos k
      have h2 := packValue_length_pos v
      simp only [packEntries, List.length_append] at hfuel
      simp only [EntryList.length, packEntries, List.append_assoc,
        unpackMapF_succ]
      have hkey := unpackF_packValue fuel (.str k)
        (packValue v ++ (packEntries tl ++ rest))
        (by simpa [wfValue] using hwk)
        (by
          simp only [packValue]
          omega)
      simp only [packValue] at hkey
      rw [hkey, bind_ok_eq]
      rw [unpackF_packValue fuel v (packEntries tl ++ rest) hwv (by omega),
        bind_ok_eq]
      have hins : mapInsert m0 k v = m0.append (.cons k v .nil) :=
        mapInsert_append m0 (hsep k v tl rfl)
      have hsep' : ∀ k2 v2 tl2, tl = .cons k2 v2 tl2 →
          keyAllLt (m0.append (.cons k v .nil)) k2 = true := by
        intro k2 v2 tl2 htl
        subst htl
        have hk12 : strLt k k2 = true := sortedKeys_head_lt hsort
        exact keyAllLt_append_single m0
          (keyAllLt_mono m0 (hsep k v _ rfl) hk12) hk12
      have hrec := unpackMapF_packEntries fuel tl (m0.append (.cons k v .nil))
        rest hwtl (sortedKeys_tail hsort) hsep' (by omega)
      simp only [hins, hrec, EntryList.append_cons]
end

/-! ## Progress: every successful unpack consumes at least one byte -/
/-- Cracking a successful `bind`: the first action succeeded too. -/
theorem exceptBind_eq_ok {ε α β : Type} {x : Except ε α} {f : α → Except ε β}
    {b : β} (h : (x >>= f) = .ok b) : ∃ a, x = .ok a ∧ f a = .ok b := by
  cases x with
  | error e => simp at h
  | ok a => exact ⟨a, rfl, h⟩

/-- Cracking a failing `bind`: either the first action failed with the same
error, or it succeeded and the continuation failed. -/
theorem exceptBind_eq_error {ε α β : Type} {x : Except ε α}
    {f : α → Except ε β} {e : ε} (h : (x >>= f) = .error e) :
    x = .error e ∨ ∃ a, x = .ok a ∧ f a = .error e := by
  cases x with
  | error e' =>
    left
    simpa using h
  | ok a => exact .inr ⟨a, rfl, h⟩

set_option maxHeartbeats 1600000 in
mutual
theorem unpackF_consume : ∀ (fuel : Nat) (bs : Bytes) (v : Value) (r : Bytes),
    unpackF fuel bs = .ok (v, r) → r.length < bs.length
  | 0, bs, v, r, h => by simp [unpackF] at h
  | fuel + 1, [], v, r, h => by simp [unpackF, read_byte] at h
  | fuel + 1, b :: bs, v, r, h => by
    simp only [unpackF, read_byte_cons, bind_ok_eq] at h
    simp only [List.length_cons]
    by_cases h1 : b < 0x80
    · rw [if_pos h1] at h
      simp only [Except.ok.injEq, Prod.mk.injEq] at h
      rw [← h.2]
      omega
    rw [if_neg h1] at h
    by_cases h2 : 0xe0 ≤ b
    · rw [if_pos h2] at h
      simp only [Except.ok.injEq, Prod.mk.injEq] at h
      rw [← h.2]
      omega
    rw [if_neg h2] at h
    by_cases h3 : b < 0x90
    · rw [if_pos h3] at h
      have := unpackMapF_consume fuel (b - 0x80) .nil bs v r h
      omega
    rw [if_neg h3] at h
    by_cases h4 : b < 0xa0
    · rw [if_pos h4] at h
      obtain ⟨⟨vs, bs1⟩, hx, h⟩ := exceptBind_eq_ok h
      dsimp only at h
      simp only [Except.ok.injEq, Prod.mk.injEq] at h
      rw [← h.2]
      have := unpackListF_consume fuel (b - 0x90) bs vs bs1 hx
      omega
    rw [if_neg h4] at h
    by_cases h5 : b < 0xc0
    · rw [if_pos h5] at h
      obtain ⟨⟨x, bs1⟩, hx, h⟩ := exceptBind_eq_ok h
      dsimp only at h
      simp only [Except.ok.injEq, Prod.mk.injEq] at h
      rw [← h.2]
      have := readN_length hx
      omega
    rw [if_neg h5] at h
    by_cases h6 : b = 0xc0
    · rw [if_pos h6] at h
      simp only [Except.ok.injEq, Prod.mk.injEq] at h
      rw [← h.2]
      omega
    rw [if_neg h6] at h
    by_cases h7 : b = 0xc2
    · rw [if_pos h7] at h
      simp only [Except.ok.injEq, Prod.mk.injEq] at h
      rw [← h.2]
      omega
    rw [if_neg h7] at h
    by_cases h8 : b = 0xc3
    · rw [if_pos h8] at h
      simp only [Except.ok.injEq, Prod.mk.injEq] at h
      rw [← h.2]
      omega
    rw [if_neg h8] at h
    by_cases h9 : b = 0xcc
    · rw [if_pos h9] at h
      obtain ⟨⟨x, bs1⟩, hx, h⟩ := exceptBind_eq_ok h
      dsimp only at h
      simp only [Except.ok.injEq, Prod.mk.injEq] at h
      rw [← h.2]
      have := read_byte_length hx
      omega
    rw [if_neg h9] at h
    by_cases h10 : b = 0xcd
    · rw [if_pos h10] at h
      obtain ⟨⟨x, bs1⟩, hx, h⟩ := exceptBind_eq_ok h
      dsimp only at h
      simp only [Except.ok.injEq, Prod.mk.injEq] at h
      rw [← h.2]
      have := read_u16_length hx
      omega
    rw [if_neg h10] at h
    by_cases h11 : b = 0xce
    · rw [if_pos h11] at h
      obtain ⟨⟨x, bs1⟩, hx, h⟩ := exceptBind_eq_ok h
      dsimp only at h
      simp only [Except.ok.injEq, Prod.mk.injEq] at h
      rw [← h.2]
      have := read_u32_length hx
      omega
    rw [if_neg h11] at h
    by_cases h12 : b = 0xd0
    · rw [if_pos h12] at h
      obtain ⟨⟨x, bs1⟩, hx, h⟩ := exceptBind_eq_ok h
      dsimp only at h
      simp only [Except.ok.injEq, Prod.mk.injEq] at h
      rw [← h.2]
      have := read_byte_length hx
      omega
    rw [if_neg h12] at h
    by_cases h13 : b = 0xd1
    · rw [if_pos h13] at h
      obtain ⟨⟨x, bs1⟩, hx, h⟩ := exceptBind_eq_ok h
      dsimp only at h
      simp only [Except.ok.injEq, Prod.mk.injEq] at h
      rw [← h.2]
      have := read_u16_length hx
      omega
    rw [if_neg h13] at h
    by_cases h14 : b = 0xd2
    · rw [if_pos h14] at h
      obtain ⟨⟨x, bs1⟩, hx, h⟩ := exceptBind_eq_ok h
      dsimp only at h
      simp only [Except.ok.injEq, Prod.mk.injEq] at h
      rw [← h.2]
      have := read_u32_length hx
      omega
    rw [if_neg h14] at h
    by_cases h15 : b = 0xca
    · rw [if_pos h15] at h
      obtain ⟨⟨x, bs1⟩, hx, h⟩ := exceptBind_eq_ok h
      dsimp only at h
      simp only [Except.ok.injEq, Prod.mk.injEq] at h
      rw [← h.2]
      have := read_u32_length hx
      omega
    rw [if_neg h15] at h
    by_cases h16 : b = 0xcb
    · rw [if_pos h16] at h
      obtain ⟨⟨x, bs1⟩, hx, h⟩ := exceptBind_eq_ok h
      dsimp only at h
      simp only [Except.ok.injEq, Prod.mk.injEq] at h
      rw [← h.2]
      have := readBE_length hx
      omega
    rw [if_neg h16] at h
    by_cases h17 : b = 0xd9
    · rw [if_pos h17] at h
      obtain ⟨⟨x1, bs1⟩, hx1, h⟩ := exceptBind_eq_ok h
      dsimp only at h
      obtain ⟨⟨x2, bs2⟩, hx2, h⟩ := exceptBind_eq_ok h
      dsimp only at h
      simp only [Except.ok.injEq, Prod.mk.injEq] at h
      rw [← h.2]
      have l1 := read_byte_length hx1
      have l2 := readN_length hx2
      omega
    rw [if_neg h17] at h
    by_cases h18 : b = 0xda
    · rw [if_pos h18] at h
      obtain ⟨⟨x1, bs1⟩, hx1, h⟩ := exceptBind_eq_ok h
      dsimp only at h
      obtain ⟨⟨x2, bs2⟩, hx2, h⟩ := exceptBind_eq_ok h
      dsimp only at h
      simp only [Except.ok.injEq, Prod.mk.injEq] at h
      rw [← h.2]
      have l1 := read_u16_length hx1
      have l2 := readN_length hx2
      omega
    rw [if_neg h18] at h
    by_cases h19 : b = 0xdc
    · rw [if_pos h19] at h
      obtain ⟨⟨x1, bs1⟩, hx1, h⟩ := exceptBind_eq_ok h
      dsimp only at h
      obtain ⟨⟨vs, bs2⟩, hx2, h⟩ := exceptBind_eq_ok h
      dsimp only at h
      simp only [Except.ok.injEq, Prod.mk.injEq] at h
      rw [← h.2]
      have l1 := read_u16_length hx1
      have l2 := unpackListF_consume fuel x1 bs1 vs bs2 hx2
      omega
    rw [if_neg h19] at h
    by_cases h20 : b = 0xdd
    · rw [if_pos h20] at h
      obtain ⟨⟨x1, bs1⟩, hx1, h⟩ := exceptBind_eq_ok h
      dsimp only at h
      obtain ⟨⟨vs, bs2⟩, hx2, h⟩ := exceptBind_eq_ok h
      dsimp only at h
      simp only [Except.ok.injEq, Prod.mk.injEq] at h
      rw [← h.2]
      have l1 := read_u32_length hx1
      have l2 := unpackListF_consume fuel x1 bs1 vs bs2 hx2
      omega
    rw [if_neg h20] at h
    by_cases h21 : b = 0xde
    · rw [if_pos h21] at h
      obtain ⟨⟨x1, bs1⟩, hx1, h⟩ := exceptBind_eq_ok h
      dsimp only at h
      have l1 := read_u16_length hx1
      have l2 := unpackMapF_consume fuel x1 .nil bs1 v r h
      omega
    rw [if_neg h21] at h
    simp only [Except.ok.injEq, Prod.mk.injEq] at h
    rw [← h.2]
    omega

theorem unpackListF_consume : ∀ (fuel n : Nat) (bs : Bytes) (vs : ValueList)
    (r : Bytes), unpackListF fuel n bs = .ok (vs, r) → r.length ≤ bs.length
  | fuel, 0, bs, vs, r, h => by
    rw [unpackListF_zero] at h
    simp only [Except.ok.injEq, Prod.mk.injEq] at h
    rw [← h.2]
  | 0, n + 1, _, vs, r, h => Except.noConfusion h
  | fuel + 1, n + 1, bs, vs, r, h => by
    rw [unpackListF_succ] at h
    obtain ⟨⟨v1, bs1⟩, hx1, h⟩ := exceptBind_eq_ok h
    dsimp only at h
    obtain ⟨⟨vs2, bs2⟩, hx2, h⟩ := exceptBind_eq_ok h
    dsimp only at h
    simp only [Except.ok.injEq, Prod.mk.injEq] at h
    rw [← h.2]
    have l1 := unpackF_consume fuel bs v1 bs1 hx1
    have l2 := unpackListF_consume fuel n bs1 vs2 bs2 hx2
    omega

theorem unpackMapF_consume : ∀ (fuel n : Nat) (m0 : EntryList) (bs : Bytes)
    (v : Value) (r : Bytes),
    unpackMapF fuel n m0 bs = .ok (v, r) → r.length ≤ bs.length
  | fuel, 0, m0, bs, v, r, h => by
    rw [unpackMapF_zero] at h
    simp only [Except.ok.injEq, Prod.mk.injEq] at h
    rw [← h.2]
  | 0, n + 1, m0, _, v, r, h => Except.noConfusion h
  | fuel + 1, n + 1, m0, bs, v, r, h => by
    rw [unpackMapF_succ] at h
    obtain ⟨⟨key, bs1⟩, hx1, h⟩ := exceptBind_eq_ok h
    dsimp only at h
    obtain ⟨⟨val, bs2⟩, hx2, h⟩ := exceptBind_eq_ok h
    dsimp only at h
    have l1 := unpackF_consume fuel bs key bs1 hx1
    have l2 := unpackF_consume fuel bs1 val bs2 hx2
    have l3 := unpackMapF_consume fuel n _ bs2 v r h
    omega
end

/-! ## The fuel artifact is invisible at the fuel `unpack` uses -/
theorem read_byte_ne_fuelOut (bs : Bytes) : read_byte bs ≠ .error .fuelOut := by
  cases bs <;> simp [read_byte]

theorem read_u16_ne_fuelOut (bs : Bytes) : read_u16 bs ≠ .error .fuelOut := by
  match bs with
  | [] => simp [read_u16]
  | [_] => simp [read_u16]
  | _ :: _ :: _ => simp [read_u16]

theorem read_u32_ne_fuelOut (bs : Bytes) : read_u32 bs ≠ .error .fuelOut := by
  match bs with
  | [] => simp [read_u32]
  | [_] => simp [read_u32]
  | [_, _] => simp [read_u32]
  | [_, _, _] => simp [read_u32]
  | _ :: _ :: _ :: _ :: _ => simp [read_u32]

theorem readBE_ne_fuelOut : ∀ (k acc : Nat) (bs : Bytes),
    readBE k acc bs ≠ .error .fuelOut
  | 0, acc, bs => by simp [readBE]
  | k + 1, acc, [] => by simp [readBE, read_byte]
  | k + 1, acc, b :: bs => by
    simp only [readBE, read_byte_cons, bind_ok_eq]
    exact readBE_ne_fuelOut k (acc * 256 + b) bs

theorem readN_ne_fuelOut : ∀ (n : Nat) (bs : Bytes), readN n bs ≠ .error .fuelOut
  | 0, bs => by simp [readN]
  | n + 1, [] => by simp [readN, read_byte]
  | n + 1, b :: bs => by
    simp only [readN, read_byte_cons, bind_ok_eq]
    intro h
    rcases exceptBind_eq_error h with hx | ⟨⟨s, bs2⟩, hx, h⟩
    · exact readN_ne_fuelOut n bs hx
    · dsimp only at h
      exact Except.noConfusion h

set_option maxHeartbeats 1600000 in
mutual
/-- If `unpackF` runs out of fuel, the fuel was at most twice the buffer
length: the loop consumes a byte for every two fuel units at worst. -/
theorem unpackF_fuelBound : ∀ (fuel : Nat) (bs : Bytes),
    unpackF fuel bs = .error .fuelOut → fuel ≤ 2 * bs.length
  | 0, bs, _ => Nat.zero_le _
  | fuel + 1, [], h => by
    have h' : (Except.error UErr.bounds : Except UErr (Value × Bytes)) =
        .error .fuelOut := h
    injection h' with h''
    exact UErr.noConfusion h''
  | fuel + 1, b :: bs, h => by
    simp only [unpackF, read_byte_cons, bind_ok_eq] at h
    simp only [List.length_cons]
    by_cases h1 : b < 0x80
    · rw [if_pos h1] at h
      exact Except.noConfusion h
    rw [if_neg h1] at h
    by_cases h2 : 0xe0 ≤ b
    · rw [if_pos h2] at h
      exact Except.noConfusion h
    rw [if_neg h2] at h
    by_cases h3 : b < 0x90
    · rw [if_pos h3] at h
      have := unpackMapF_fuelBound fuel (b - 0x80) .nil bs h
      omega
    rw [if_neg h3] at h
    by_cases h4 : b < 0xa0
    · rw [if_pos h4] at h
      rcases exceptBind_eq_error h with hx | ⟨⟨vs, bs1⟩, hx, h⟩
      · have := unpackListF_fuelBound fuel (b - 0x90) bs hx
        omega
      · dsimp only at h
        exact Except.noConfusion h
    rw [if_neg h4] at h
    by_cases h5 : b < 0xc0
    · rw [if_pos h5] at h
      rcases exceptBind_eq_error h with hx | ⟨⟨x1, bs1⟩, hx, h⟩
      · exact absurd hx (readN_ne_fuelOut _ _)
      · dsimp only at h
        exact Except.noConfusion h
    rw [if_neg h5] at h
    by_cases h6 : b = 0xc0
    · rw [if_pos h6] at h
      exact Except.noConfusion h
    rw [if_neg h6] at h
    by_cases h7 : b = 0xc2
    · rw [if_pos h7] at h
      exact Except.noConfusion h
    rw [if_neg h7] at h
    by_cases h8 : b = 0xc3
    · rw [if_pos h8] at h
      exact Except.noConfusion h
    rw [if_neg h8] at h
    by_cases h9 : b = 0xcc
    · rw [if_pos h9] at h
      rcases exceptBind_eq_error h with hx | ⟨⟨x1, bs1⟩, hx, h⟩
      · exact absurd hx (read_byte_ne_fuelOut _)
      · dsimp only at h
        exact Except.noConfusion h
    rw [if_neg h9] at h
    by_cases h10 : b = 0xcd
    · rw [if_pos h10] at h
      rcases exceptBind_eq_error h with hx | ⟨⟨x1, bs1⟩, hx, h⟩
      · exact absurd hx (read_u16_ne_fuelOut _)
      · dsimp only at h
        exact Except.noConfusion h
    rw [if_neg h10] at h
    by_cases h11 : b = 0xce
    · rw [if_pos h11] at h
      rcases exceptBind_eq_error h with hx | ⟨⟨x1, bs1⟩, hx, h⟩
      · exact absurd hx (read_u32_ne_fuelOut _)
      · dsimp only at h
        exact Except.noConfusion h
    rw [if_neg h11] at h
    by_cases h12 : b = 0xd0
    · rw [if_pos h12] at h
      rcases exceptBind_eq_error h with hx | ⟨⟨x1, bs1⟩, hx, h⟩
      · exact absurd hx (read_byte_ne_fuelOut _)
      · dsimp only at h
        exact Except.noConfusion h
    rw [if_neg h12] at h
    by_cases h13 : b = 0xd1
    · rw [if_pos h13] at h
      rcases exceptBind_eq_error h with hx | ⟨⟨x1, bs1⟩, hx, h⟩
      · exact absurd hx (read_u16_ne_fuelOut _)
      · dsimp only at h
        exact Except.noConfusion h
    rw [if_neg h13] at h
    by_cases h14 : b = 0xd2
    · rw [if_pos h14] at h
      rcases exceptBind_eq_error h with hx | ⟨⟨x1, bs1⟩, hx, h⟩
      · exact absurd hx (read_u32_ne_fuelOut _)
      · dsimp only at h
        exact Except.noConfusion h
    rw [if_neg h14] at h
    by_cases h15 : b = 0xca
    · rw [if_pos h15] at h
      rcases exceptBind_eq_error h with hx | ⟨⟨x1, bs1⟩, hx, h⟩
      · exact absurd hx (read_u32_ne_fuelOut _)
      · dsimp only at h
        exact Except.noConfusion h
    rw [if_neg h15] at h
    by_cases h16 : b = 0xcb
    · rw [if_pos h16] at h
      rcases exceptBind_eq_error h with hx | ⟨⟨x1, bs1⟩, hx, h⟩
      · exact absurd hx (readBE_ne_fuelOut _ _ _)
      · dsimp only at h
        exact Except.noConfusion h
    rw [if_neg h16] at h
    by_cases h17 : b = 0xd9
    · rw [if_pos h17] at h
      rcases exceptBind_eq_error h with hx | ⟨⟨x1, bs1⟩, hx, h⟩
      · exact absurd hx (read_byte_ne_fuelOut _)
      · dsimp only at h
        rcases exceptBind_eq_error h with hy | ⟨⟨x2, bs2⟩, hy, h⟩
        · exact absurd hy (readN_ne_fuelOut _ _)
        · dsimp only at h
          exact Except.noConfusion h
    rw [if_neg h17] at h
    by_cases h18 : b = 0xda
    · rw [if_pos h18] at h
      rcases exceptBind_eq_error h with hx | ⟨⟨x1, bs1⟩, hx, h⟩
      · exact absurd hx (read_u16_ne_fuelOut _)
      · dsimp only at h
        rcases exceptBind_eq_error h with hy | ⟨⟨x2, bs2⟩, hy, h⟩
        · exact absurd hy (readN_ne_fuelOut _ _)
        · dsimp only at h
          exact Except.noConfusion h
    rw [if_neg h18] at h
    by_cases h19 : b = 0xdc
    · rw [if_pos h19] at h
      rcases exceptBind_eq_error h with hx | ⟨⟨x1, bs1⟩, hx, h⟩
      · exact absurd hx (read_u16_ne_fuelOut _)
      · dsimp only at h
        rcases exceptBind_eq_error h with hy | ⟨⟨vs, bs2⟩, hy, h⟩
        · have l1 := read_u16_length hx
          have l2 := unpackListF_fuelBound fuel x1 bs1 hy
          omega
        · dsimp only at h
          exact Except.noConfusion h
    rw [if_neg h19] at h
    by_cases h20 : b = 0xdd
    · rw [if_pos h20] at h
      rcases exceptBind_eq_error h with hx | ⟨⟨x1, bs1⟩, hx, h⟩
      · exact absurd hx (read_u32_ne_fuelOut _)
      · dsimp only at h
        rcases exceptBind_eq_error h with hy | ⟨⟨vs, bs2⟩, hy, h⟩
        · have l1 := read_u32_length hx
          have l2 := unpackListF_fuelBound fuel x1 bs1 hy
          omega
        · dsimp only at h
          exact Except.noConfusion h
    rw [if_neg h20] at h
    by_cases h21 : b = 0xde
    · rw [if_pos h21] at h
      rcases exceptBind_eq_error h with hx | ⟨⟨x1, bs1⟩, hx, h⟩
      · exact absurd hx (read_u16_ne_fuelOut _)
      · dsimp only at h
        have l1 := read_u16_length hx
        have l2 := unpackMapF_fuelBound fuel x1 .nil bs1 h
        omega
    rw [if_neg h21] at h
    exact Except.noConfusion h

theorem unpackListF_fuelBound : ∀ (fuel n : Nat) (bs : Bytes),
    unpackListF fuel n bs = .error .fuelOut → fuel ≤ 2 * bs.length + 1
  | fuel, 0, bs, h => by
    rw [unpackListF_zero] at h
    exact Except.noConfusion h
  | 0, n + 1, bs, _ => Nat.zero_le _
  | fuel + 1, n + 1, bs, h => by
    rw [unpackListF_succ] at h
    rcases exceptBind_eq_error h with hx | ⟨⟨v1, bs1⟩, hx, h⟩
    · have := unpackF_fuelBound fuel bs hx
      omega
    · dsimp only at h
      rcases exceptBind_eq_error h with hy | ⟨⟨vs2, bs2⟩, hy, h⟩
      · have c1 := unpackF_consume fuel bs v1 bs1 hx
        have := unpackListF_fuelBound fuel n bs1 hy
        omega
      · dsimp only at h
        exact Except.noConfusion h

theorem unpackMapF_fuelBound : ∀ (fuel n : Nat) (m0 : EntryList) (bs : Bytes),
    unpackMapF fuel n m0 bs = .error .fuelOut → fuel ≤ 2 * bs.length + 1
  | fuel, 0, m0, bs, h => by
    rw [unpackMapF_zero] at h
    exact Except.noConfusion h
  | 0, n + 1, m0, bs, _ => Nat.zero_le _
  | fuel + 1, n + 1, m0, bs, h => by
    rw [unpackMapF_succ] at h
    rcases exceptBind_eq_error h with hx | ⟨⟨key, bs1⟩, hx, h⟩
    · have := unpackF_fuelBound fuel bs hx
      omega
    · dsimp only at h
      rcases exceptBind_eq_error h with hy | ⟨⟨val, bs2⟩, hy, h⟩
      · have c1 := unpackF_consume fuel bs key bs1 hx
        have := unpackF_fuelBound fuel bs1 hy
        omega
      · dsimp only at h
        have c1 := unpackF_consume fuel bs key bs1 hx
        have c2 := unpackF_consume fuel bs1 val bs2 hy
        have := unpackMapF_fuelBound fuel n _ bs2 h
        omega
end

/-- At the fuel `unpack` chooses, the fuel artifact never fires: the only
observable failure of the unpacker is the bounds error of the source. -/
theorem unpack_ne_fuelOut (bs : Bytes) : unpack bs ≠ .error .fuelOut := by
  intro h
  have := unpackF_fuelBound _ _ h
  omega

/-! ## A successful unpack is stable under appending bytes and adding fuel -/
set_option maxHeartbeats 1600000 in
mutual
/-- A successful parse only looked at the bytes it consumed: appending any
tail (and allowing at least as much fuel) returns the same value with the
tail appended to the leftover. -/
theorem unpackF_extend : ∀ (fuel f2 : Nat) (bs : Bytes) (v : Value)
    (r t : Bytes), fuel ≤ f2 → unpackF fuel bs = .ok (v, r) →
    unpackF f2 (bs ++ t) = .ok (v, r ++ t)
  | 0, f2, bs, v, r, t, hle, h => Except.noConfusion h
  | fuel + 1, f2, [], v, r, t, hle, h => by
    have h' : (Except.error UErr.bounds : Except UErr (Value × Bytes)) =
        .ok (v, r) := h
    exact Except.noConfusion h'
  | fuel + 1, f2, b :: bs, v, r, t, hle, h => by
    obtain ⟨f3, rfl⟩ : ∃ k, f2 = k + 1 := ⟨f2 - 1, by omega⟩
    simp only [unpackF, read_byte_cons, bind_ok_eq] at h
    simp only [List.cons_append, unpackF, read_byte_cons, bind_ok_eq]
    by_cases h1 : b < 0x80
    · rw [if_pos h1] at h ⊢
      simp only [Except.ok.injEq, Prod.mk.injEq] at h
      rw [← h.1, ← h.2]
    rw [if_neg h1] at h ⊢
    by_cases h2 : 0xe0 ≤ b
    · rw [if_pos h2] at h ⊢
      simp only [Except.ok.injEq, Prod.mk.injEq] at h
      rw [← h.1, ← h.2]
    rw [if_neg h2] at h ⊢
    by_cases h3 : b < 0x90
    · rw [if_pos h3] at h ⊢
      exact unpackMapF_extend fuel f3 _ _ _ _ _ _ (by omega) h
    rw [if_neg h3] at h ⊢
    by_cases h4 : b < 0xa0
    · rw [if_pos h4] at h ⊢
      obtain ⟨⟨vs, bs1⟩, hx, h⟩ := exceptBind_eq_ok h
      dsimp only at h
      rw [unpackListF_extend fuel f3 _ _ _ _ _ (by omega) hx, bind_ok_eq]
      dsimp only
      simp only [Except.ok.injEq, Prod.mk.injEq] at h
      rw [← h.1, ← h.2]
    rw [if_neg h4] at h ⊢
    by_cases h5 : b < 0xc0
    · rw [if_pos h5] at h ⊢
      obtain ⟨⟨x1, bs1⟩, hx, h⟩ := exceptBind_eq_ok h
      dsimp only at h
      rw [readN_extend hx t, bind_ok_eq]
      dsimp only
      simp only [Except.ok.injEq, Prod.mk.injEq] at h
      rw [← h.1, ← h.2]
    rw [if_neg h5] at h ⊢
    by_cases h6 : b = 0xc0
    · rw [if_pos h6] at h ⊢
      simp only [Except.ok.injEq, Prod.mk.injEq] at h
      rw [← h.1, ← h.2]
    rw [if_neg h6] at h ⊢
    by_cases h7 : b = 0xc2
    · rw [if_pos h7] at h ⊢
      simp only [Except.ok.injEq, Prod.mk.injEq] at h
      rw [← h.1, ← h.2]
    rw [if_neg h7] at h ⊢
    by_cases h8 : b = 0xc3
    · rw [if_pos h8] at h ⊢
      simp only [Except.ok.injEq, Prod.mk.injEq] at h
      rw [← h.1, ← h.2]
    rw [if_neg h8] at h ⊢
    by_cases h9 : b = 0xcc
    · rw [if_pos h9] at h ⊢
      obtain ⟨⟨x1, bs1⟩, hx, h⟩ := exceptBind_eq_ok h
      dsimp only at h
      rw [read_byte_extend hx t, bind_ok_eq]
      dsimp only
      simp only [Except.ok.injEq, Prod.mk.injEq] at h
      rw [← h.1, ← h.2]
    rw [if_neg h9] at h ⊢
    by_cases h10 : b = 0xcd
    · rw [if_pos h10] at h ⊢
      obtain ⟨⟨x1, bs1⟩, hx, h⟩ := exceptBind_eq_ok h
      dsimp only at h
      rw [read_u16_extend hx t, bind_ok_eq]
      dsimp only
      simp only [Except.ok.injEq, Prod.mk.injEq] at h
      rw [← h.1, ← h.2]
    rw [if_neg h10] at h ⊢
    by_cases h11 : b = 0xce
    · rw [if_pos h11] at h ⊢
      obtain ⟨⟨x1, bs1⟩, hx, h⟩ := exceptBind_eq_ok h
      dsimp only at h
      rw [read_u32_extend hx t, bind_ok_eq]
      dsimp only
      simp only [Except.ok.injEq, Prod.mk.injEq] at h
      rw [← h.1, ← h.2]
    rw [if_neg h11] at h ⊢
    by_cases h12 : b = 0xd0
    · rw [if_pos h12] at h ⊢
      obtain ⟨⟨x1, bs1⟩, hx, h⟩ := exceptBind_eq_ok h
      dsimp only at h
      rw [read_byte_extend hx t, bind_ok_eq]
      dsimp only
      simp only [Except.ok.injEq, Prod.mk.injEq] at h
      rw [← h.1, ← h.2]
    rw [if_neg h12] at h ⊢
    by_cases h13 : b = 0xd1
    · rw [if_pos h13] at h ⊢
      obtain ⟨⟨x1, bs1⟩, hx, h⟩ := exceptBind_eq_ok h
      dsimp only at h
      rw [read_u16_extend hx t, bind_ok_eq]
      dsimp only
      simp only [Except.ok.injEq, Prod.mk.injEq] at h
      rw [← h.1, ← h.2]
    rw [if_neg h13] at h ⊢
    by_cases h14 : b = 0xd2
    · rw [if_pos h14] at h ⊢
      obtain ⟨⟨x1, bs1⟩, hx, h⟩ := exceptBind_eq_ok h
      dsimp only at h
      rw [read_u32_extend hx t, bind_ok_eq]
      dsimp only
      simp only [Except.ok.injEq, Prod.mk.injEq] at h
      rw [← h.1, ← h.2]
    rw [if_neg h14] at h ⊢
    by_cases h15 : b = 0xca
    · rw [if_pos h15] at h ⊢
      obtain ⟨⟨x1, bs1⟩, hx, h⟩ := exceptBind_eq_ok h
      dsimp only at h
      rw [read_u32_extend hx t, bind_ok_eq]
      dsimp only
      simp only [Except.ok.injEq, Prod.mk.injEq] at h
      rw [← h.1, ← h.2]
    rw [if_neg h15] at h ⊢
    by_cases h16 : b = 0xcb
    · rw [if_pos h16] at h ⊢
      obtain ⟨⟨x1, bs1⟩, hx, h⟩ := exceptBind_eq_ok h
      dsimp only at h
      rw [readBE_extend hx t, bind_ok_eq]
      dsimp only
      simp only [Except.ok.injEq, Prod.mk.injEq] at h
      rw [← h.1, ← h.2]
    rw [if_neg h16] at h ⊢
    by_cases h17 : b = 0xd9
    · rw [if_pos h17] at h ⊢
      obtain ⟨⟨x1, bs1⟩, hx1, h⟩ := exceptBind_eq_ok h
      dsimp only at h
      obtain ⟨⟨x2, bs2⟩, hx2, h⟩ := exceptBind_eq_ok h
      dsimp only at h
      rw [read_byte_extend hx1 t, bind_ok_eq]
      dsimp only
      rw [readN_extend hx2 t, bind_ok_eq]
      dsimp only
      simp only [Except.ok.injEq, Prod.mk.injEq] at h
      rw [← h.1, ← h.2]
    rw [if_neg h17] at h ⊢
    by_cases h18 : b = 0xda
    · rw [if_pos h18] at h ⊢
      obtain ⟨⟨x1, bs1⟩, hx1, h⟩ := exceptBind_eq_ok h
      dsimp only at h
      obtain ⟨⟨x2, bs2⟩, hx2, h⟩ := exceptBind_eq_ok h
      dsimp only at h
      rw [read_u16_extend hx1 t, bind_ok_eq]
      dsimp only
      rw [readN_extend hx2 t, bind_ok_eq]
      dsimp only
      simp only [Except.ok.injEq, Prod.mk.injEq] at h
      rw [← h.1, ← h.2]
    rw [if_neg h18] at h ⊢
    by_cases h19 : b = 0xdc
    · rw [if_pos h19] at h ⊢
      obtain ⟨⟨x1, bs1⟩, hx1, h⟩ := exceptBind_eq_ok h
      dsimp only at h
      obtain ⟨⟨vs, bs2⟩, hx2, h⟩ := exceptBind_eq_ok h
      dsimp only at h
      rw [read_u16_extend hx1 t, bind_ok_eq]
      dsimp only
      rw [unpackListF_extend fuel f3 _ _ _ _ _ (by omega) hx2, bind_ok_eq]
      dsimp only
      simp only [Except.ok.injEq, Prod.mk.injEq] at h
      rw [← h.1, ← h.2]
    rw [if_neg h19] at h ⊢
    by_cases h20 : b = 0xdd
    · rw [if_pos h20] at h ⊢
      obtain ⟨⟨x1, bs1⟩, hx1, h⟩ := exceptBind_eq_ok h
      dsimp only at h
      obtain ⟨⟨vs, bs2⟩, hx2, h⟩ := exceptBind_eq_ok h
      dsimp only at h
      rw [read_u32_extend hx1 t, bind_ok_eq]
      dsimp only
      rw [unpackListF_extend fuel f3 _ _ _ _ _ (by omega) hx2, bind_ok_eq]
      dsimp only
      simp only [Except.ok.injEq, Prod.mk.injEq] at h
      rw [← h.1, ← h.2]
    rw [if_neg h20] at h ⊢
    by_cases h21 : b = 0xde
    · rw [if_pos h21] at h ⊢
      obtain ⟨⟨x1, bs1⟩, hx1, h⟩ := exceptBind_eq_ok h
      dsimp only at h
      rw [read_u16_extend hx1 t, bind_ok_eq]
      dsimp only
      exact unpackMapF_extend fuel f3 _ _ _ _ _ _ (by omega) h
    rw [if_neg h21] at h ⊢
    simp only [Except.ok.injEq, Prod.mk.injEq] at h
    rw [← h.1, ← h.2]

theorem unpackListF_extend : ∀ (fuel f2 n : Nat) (bs : Bytes)
    (vs : ValueList) (r t : Bytes), fuel ≤ f2 →
    unpackListF fuel n bs = .ok (vs, r) →
    unpackListF f2 n (bs ++ t) = .ok (vs, r ++ t)
  | fuel, f2, 0, bs, vs, r, t, hle, h => by
    rw [unpackListF_zero] at h
    rw [unpackListF_zero]
    simp only [Except.ok.injEq, Prod.mk.injEq] at h
    rw [← h.1, ← h.2]
  | 0, f2, n + 1, bs, vs, r, t, hle, h => Except.noConfusion h
  | fuel + 1, f2, n + 1, bs, vs, r, t, hle, h => by
    obtain ⟨f3, rfl⟩ : ∃ k, f2 = k + 1 := ⟨f2 - 1, by omega⟩
    rw [unpackListF_succ] at h
    rw [unpackListF_succ]
    obtain ⟨⟨v1, bs1⟩, hx1, h⟩ := exceptBind_eq_ok h
    dsimp only at h
    obtain ⟨⟨vs2, bs2⟩, hx2, h⟩ := exceptBind_eq_ok h
    dsimp only at h
    rw [unpackF_extend fuel f3 _ _ _ _ (by omega) hx1, bind_ok_eq]
    dsimp only
    rw [unpackListF_extend fuel f3 _ _ _ _ _ (by omega) hx2, bind_ok_eq]
    dsimp only
    simp only [Except.ok.injEq, Prod.mk.injEq] at h
    rw [← h.1, ← h.2]

theorem unpackMapF_extend : ∀ (fuel f2 n : Nat) (m0 : EntryList) (bs : Bytes)
    (v : Value) (r t : Bytes), fuel ≤ f2 →
    unpackMapF fuel n m0 bs = .ok (v, r) →
    unpackMapF f2 n m0 (bs ++ t) = .ok (v, r ++ t)
  | fuel, f2, 0, m0, bs, v, r, t, hle, h => by
    rw [unpackMapF_zero] at h
    rw [unpackMapF_zero]
    simp only [Except.ok.injEq, Prod.mk.injEq] at h
    rw [← h.1, ← h.2]
  | 0, f2, n + 1, m0, bs, v, r, t, hle, h => Except.noConfusion h
  | fuel + 1, f2, n + 1, m0, bs, v, r, t, hle, h => by
    obtain ⟨f3, rfl⟩ : ∃ k, f2 = k + 1 := ⟨f2 - 1, by omega⟩
    rw [unpackMapF_succ] at h
    rw [unpackMapF_succ]
    obtain ⟨⟨key, bs1⟩, hx1, h⟩ := exceptBind_eq_ok h
    dsimp only at h
    obtain ⟨⟨val, bs2⟩, hx2, h⟩ := exceptBind_eq_ok h
    dsimp only at h
    rw [unpackF_extend fuel f3 _ _ _ _ (by omega) hx1, bind_ok_eq]
    dsimp only
    rw [unpackF_extend fuel f3 _ _ _ _ (by omega) hx2, bind_ok_eq]
    dsimp only
    exact unpackMapF_extend fuel f3 n _ bs2 v r t (by omega) h
end

/-! ## The wrapper `unpack` -/
/-- Round-trip at the fuel `unpack` uses: unpacking a packed well-formed
value consumes the whole buffer and returns the value. -/
theorem unpack_packValue (v : Value) (hwf : wfValue v = true) :
    unpack (packValue v) = .ok (v, []) := by
  have h := unpackF_packValue (2 * (packValue v).length + 1) v [] hwf (by omega)
  rw [List.append_nil] at h
  exact h

/-- Truncating the packed bytes of a well-formed value at any offset short of
the end makes `unpack` fail with the bounds error. -/
theorem unpack_take_bounds (v : Value) (k : Nat) (hwf : wfValue v = true)
    (hk : k < (packValue v).length) :
    unpack ((packValue v).take k) = .error .bounds := by
  cases h : unpack ((packValue v).take k) with
  | ok p =>
    exfalso
    obtain ⟨v2, r2⟩ := p
    have hext := unpackF_extend (2 * ((packValue v).take k).length + 1)
      (2 * (packValue v).length + 1) _ _ _ ((packValue v).drop k)
      (by
        have hlen : ((packValue v).take k).length ≤ (packValue v).length := by
          simp [List.length_take]
        omega) h
    rw [List.take_append_drop] at hext
    have hrt := unpackF_packValue (2 * (packValue v).length + 1) v [] hwf
      (by omega)
    rw [List.append_nil] at hrt
    rw [hrt] at hext
    simp only [Except.ok.injEq, Prod.mk.injEq] at hext
    have hl := congrArg List.length hext.2
    simp only [List.length_nil, List.length_append, List.length_drop] at hl
    omega
  | error e =>
    cases e with
    | bounds => rfl
    | fuelOut => exact absurd h (unpack_ne_fuelOut _)

/-- A leading byte matching no known tag decodes to `Nil` and consumes only
that byte — the lenient `default:` policy. -/
theorem unpack_unhandledTag (b : Nat) (bs : Bytes)
    (h : unhandledTag b = true) : unpack (b :: bs) = .ok (.nil, bs) := by
  show unpackF (2 * (b :: bs).length + 1) (b :: bs) = .ok (.nil, bs)
  rw [show 2 * (b :: bs).length + 1 = (2 * bs.length + 2) + 1 by
    simp only [List.length_cons]
    omega]
  simp only [unpackF, read_byte_cons, bind_ok_eq]
  simp only [unhandledTag, Bool.or_eq_true, Bool.and_eq_true,
    decide_eq_true_eq] at h
  rcases h with ((((h | ⟨hlo, hhi⟩) | h) | ⟨hlo, hhi⟩) | h) | h
  · subst h
    norm_num
  · interval_cases b <;> norm_num
  · subst h
    norm_num
  · interval_cases b <;> norm_num
  · subst h
    norm_num
  · subst h
    norm_num
end msgpack_lite


/-! ## Tree codec size agreement (C6) and flat record layout (C9) -/
/-- The two passes of the tree codec traverse the same recursion: the size
pass computes exactly the byte count the fill pass writes. -/
theorem buildTree_length_eq_calcSize : ∀ (depth breadth : Nat),
    (CStruct.buildTreeCStruct depth breadth).length =
      CStruct.calculateTreeSize depth breadth
  | 0, breadth => by
    simp [CStruct.buildTreeCStruct, CStruct.calculateTreeSize]
  | depth + 1, breadth => by
    simp [CStruct.buildTreeCStruct, CStruct.calculateTreeSize,
      List.length_flatten, List.map_replicate,
      buildTree_length_eq_calcSize depth breadth]
    omega

/-- Writing at the frontier of an already-written prefix inside a
zero-initialised scratch buffer extends the prefix. -/
theorem writeBytes_step (w : Bytes) (m : Nat) (bytes : Bytes)
    (h : bytes.length ≤ m) :
    CStruct.writeBytes (w ++ List.replicate m 0) w.length bytes =
      (w ++ bytes) ++ List.replicate (m - bytes.length) 0 := by
  unfold CStruct.writeBytes
  rw [List.take_left, List.drop_append, List.drop_replicate, List.append_assoc]

/-- **C6.** Fixed-layout tree codec size agreement: for every depth in
{0,…,5} and breadth in {1,2,3}, `calculateTreeSize(depth, breadth)` equals
the number of bytes written (the offset returned) by
`buildTreeCStruct(ptr, depth, breadth)`, so the two-pass scheme allocates
exactly the bytes the fill pass writes.  (Proved for all depths and
breadths.) -/
theorem c6_tree_size_agreement (depth breadth : Nat) (hd : depth ≤ 5)
    (hb1 : 1 ≤ breadth) (hb2 : breadth ≤ 3) :
    CStruct.calculateTreeSize depth breadth =
      (CStruct.buildTreeCStruct depth breadth).length :=
  (buildTree_length_eq_calcSize depth breadth).symm

theorem c6_tree_size_agreement_witness :
    (3 : Nat) ≤ 5 ∧ (1 : Nat) ≤ 2 ∧ (2 : Nat) ≤ 3 ∧
    CStruct.calculateTreeSize 3 2 = (CStruct.buildTreeCStruct 3 2).length :=
  ⟨by decide, by decide, by decide,
    c6_tree_size_agreement 3 2 (by decide) (by decide) (by decide)⟩

/-- **C9.** Fixed-layout flat record encoding: for every `nameLen ≥ 0` (as a
C `int`, so below `2^31`), `generateFlatCStruct(nameLen)` writes a buffer of
exactly `17 + nameLen` bytes (and `getLastCStructLength()` then returns that
size), laid out with no inter-field padding and little-endian multi-byte
fields: the 32-bit id `42` at offset 0, the 64-bit double `3.14159265359`
(bit pattern `piBits`) at offset 4, the 8-bit flag `1` at offset 12, the
32-bit `nameLen` at offset 13, followed immediately by `nameLen` bytes each
equal to 120 (ASCII x). -/
theorem c9_flat_cstruct_layout (nameLen : Nat) (hn : nameLen < 2147483648) :
    (CStruct.generateFlatCStruct nameLen).1 =
      leBytes 4 42 ++ (leBytes 8 piBits ++ ([1] ++ (leBytes 4 nameLen ++
        List.replicate nameLen 120))) ∧
    (CStruct.generateFlatCStruct nameLen).1.length = 17 + nameLen ∧
    CStruct.getLastCStructLength nameLen = 17 + nameLen := by
  have h1 : CStruct.writeBytes (List.replicate (17 + nameLen) 0) 0
      (leBytes 4 42) = leBytes 4 42 ++ List.replicate (13 + nameLen) 0 := by
    have := writeBytes_step [] (17 + nameLen) (leBytes 4 42) (by simp only [leBytes_length, List.length_replicate, List.length_cons, List.length_nil]; omega)
    have harith : 17 + nameLen - 4 = 13 + nameLen := by omega
    simpa [harith] using this
  have h2 : CStruct.writeBytes (leBytes 4 42 ++ List.replicate (13 + nameLen) 0)
      4 (leBytes 8 piBits) =
      (leBytes 4 42 ++ leBytes 8 piBits) ++ List.replicate (5 + nameLen) 0 := by
    have := writeBytes_step (leBytes 4 42) (13 + nameLen) (leBytes 8 piBits)
      (by simp only [leBytes_length, List.length_replicate, List.length_cons, List.length_nil]; omega)
    have harith : 13 + nameLen - 8 = 5 + nameLen := by omega
    simpa [harith] using this
  have h3 : CStruct.writeBytes
      ((leBytes 4 42 ++ leBytes 8 piBits) ++ List.replicate (5 + nameLen) 0)
      12 [1] =
      ((leBytes 4 42 ++ leBytes 8 piBits) ++ [1]) ++
        List.replicate (4 + nameLen) 0 := by
    have := writeBytes_step (leBytes 4 42 ++ leBytes 8 piBits)
      (5 + nameLen) [1] (by simp only [leBytes_length, List.length_replicate, List.length_cons, List.length_nil]; omega)
    have harith : 5 + nameLen - 1 = 4 + nameLen := by omega
    simpa [harith] using this
  have h4 : CStruct.writeBytes
      (((leBytes 4 42 ++ leBytes 8 piBits) ++ [1]) ++
        List.replicate (4 + nameLen) 0) 13 (leBytes 4 nameLen) =
      ((((leBytes 4 42 ++ leBytes 8 piBits) ++ [1]) ++ leBytes 4 nameLen)) ++
        List.replicate nameLen 0 := by
    have := writeBytes_step ((leBytes 4 42 ++ leBytes 8 piBits) ++ [1])
      (4 + nameLen) (leBytes 4 nameLen) (by simp only [leBytes_length, List.length_replicate, List.length_cons, List.length_nil]; omega)
    have harith : 4 + nameLen - 4 = nameLen := by omega
    simpa [harith] using this
  have h5 : CStruct.writeBytes
      ((((leBytes 4 42 ++ leBytes 8 piBits) ++ [1]) ++ leBytes 4 nameLen) ++
        List.replicate nameLen 0) 17 (List.replicate nameLen 120) =
      (((leBytes 4 42 ++ leBytes 8 piBits) ++ [1]) ++ leBytes 4 nameLen) ++
        List.replicate nameLen 120 := by
    have := writeBytes_step
      (((leBytes 4 42 ++ leBytes 8 piBits) ++ [1]) ++ leBytes 4 nameLen)
      nameLen (List.replicate nameLen 120) (by simp only [leBytes_length, List.length_replicate, List.length_cons, List.length_nil]; omega)
    simpa using this
  have hbuf : (CStruct.generateFlatCStruct nameLen).1 =
      (((leBytes 4 42 ++ leBytes 8 piBits) ++ [1]) ++ leBytes 4 nameLen) ++
        List.replicate nameLen 120 := by
    show CStruct.writeBytes (CStruct.writeBytes (CStruct.writeBytes
      (CStruct.writeBytes (CStruct.writeBytes
        (List.replicate (17 + nameLen) 0) 0 (leBytes 4 42))
        4 (leBytes 8 piBits)) 12 [1]) 13 (leBytes 4 nameLen))
        17 (List.replicate nameLen 120) = _
    rw [h1, h2, h3, h4, h5]
  refine ⟨?_, ?_, ?_⟩
  · rw [hbuf]
    simp [List.append_assoc]
  · rw [hbuf]
    simp only [List.length_append, leBytes_length, List.length_replicate,
      List.length_cons, List.length_nil]
  · rfl

theorem c9_flat_cstruct_layout_witness :
    (10 : Nat) < 2147483648 ∧
    ((CStruct.generateFlatCStruct 10).1 =
      leBytes 4 42 ++ (leBytes 8 piBits ++ ([1] ++ (leBytes 4 10 ++
        List.replicate 10 120))) ∧
    (CStruct.generateFlatCStruct 10).1.length = 17 + 10 ∧
    CStruct.getLastCStructLength 10 = 17 + 10) :=
  ⟨by decide, c9_flat_cstruct_layout 10 (by decide)⟩

/-! ## Concrete flat record (C5) and size-class selection (C3, C4) -/
/-- **C5.** Encoding the flat record `{id: 42, name: ten x characters,
value: 3.14159265359, flag: true}` as a map with 4 entries produces the
MessagePack map header byte `0x84`, followed by the string-key/value pairs
in insertion order (id, name, value, flag), with the value field encoded as
tag `0xcb` followed by the 8 IEEE-754 bytes of 3.14159265359 written most
significant byte first (network byte order). -/
theorem c5_flat_record_bytes :
    generateFlatMsgpack 10 =
      [0x84] ++
      ([0xa2, 105, 100] ++ [0x2a]) ++
      ([0xa4, 110, 97, 109, 101] ++ (0xaa :: List.replicate 10 120)) ++
      ([0xa5, 118, 97, 108, 117, 101] ++
        (0xcb :: [0x40, 0x09, 0x21, 0xfb, 0x54, 0x44, 0x2e, 0xea])) ++
      ([0xa4, 102, 108, 97, 103] ++ [0xc3]) ∧
    beBytes 8 piBits = [0x40, 0x09, 0x21, 0xfb, 0x54, 0x44, 0x2e, 0xea] :=
  ⟨rfl, rfl⟩

theorem mp_pack_string_fixstr (s : Bytes) (h : s.length ≤ 31) :
    MsgpackPacker.pack_string s = (0xa0 + s.length) :: s := by
  rw [MsgpackPacker.pack_string, if_pos h]
  rfl

theorem mp_pack_string_str8 (s : Bytes) (h1 : 32 ≤ s.length)
    (h2 : s.length ≤ 255) :
    MsgpackPacker.pack_string s = 0xd9 :: s.length :: s := by
  rw [MsgpackPacker.pack_string, if_neg (by omega), if_pos h2]
  rfl

theorem mp_pack_string_str16 (s : Bytes) (h1 : 256 ≤ s.length)
    (h2 : s.length ≤ 65535) :
    MsgpackPacker.pack_string s = (0xda :: beBytes 2 s.length) ++ s := by
  rw [MsgpackPacker.pack_string, if_neg (by omega), if_neg (by omega),
    if_pos h2]

theorem mp_pack_string_str32 (s : Bytes) (h : 65536 ≤ s.length) :
    MsgpackPacker.pack_string s = (0xdb :: beBytes 4 s.length) ++ s := by
  rw [MsgpackPacker.pack_string, if_neg (by omega), if_neg (by omega),
    if_neg (by omega)]

theorem lite_pack_string_above255 (s : Bytes) (h : 256 ≤ s.length) :
    msgpack_lite.pack_string s =
      (0xda :: beBytes 2 (s.length % 65536)) ++ s := by
  rw [msgpack_lite.pack_string, if_neg (by omega), if_neg (by omega)]

/-- **C3 counterexample.** The claim asserts `pack_string` emits `0xdb` plus
a 4-byte length for lengths above 65535, and cites both packers; but
`msgpack_lite::Packer::pack_string` (src/unnamed/part_009) has no `0xdb`
case: at length 65536 it still emits `0xda`, with the 2-byte length field
truncated to `65536 % 2^16 = 0`. -/
theorem c3_counterexample :
    (msgpack_lite.pack_string (List.replicate 65536 120)).take 3 =
      [0xda, 0, 0] := by
  rw [lite_pack_string_above255 _ (by rw [List.length_replicate] <;> norm_num)]
  rw [List.length_replicate]
  norm_num [beBytes, List.take]

/-- **C3 (amended).** String/array/map size-class selection.  For
`MsgpackPacker` (src/unnamed/part_008) exactly as claimed: `0xa0|n` for
`n ≤ 31`, `0xd9`+1-byte for `n ≤ 255`, `0xda`+2-byte for `n ≤ 65535`,
`0xdb`+4-byte otherwise, raw bytes with no terminator; `0x90|n`/`0xdc`/`0xdd`
for arrays and `0x80|n`/`0xde`/`0xdf` for maps; boundary lengths select the
documented tags; an empty array encodes to the single byte `0x90` and an
array of 16 zero integers to `0xdc 0x00 0x10` plus sixteen `0x00` bytes.
For `msgpack_lite.Packer` the ladders stop at the 2-byte forms (no
`0xdb`/`0xdd`/`0xdf` cases), as the counterexample shows. -/
theorem c3_size_class_selection :
    ((MsgpackPacker.pack_string (List.replicate 31 120)).take 1 = [0xa0 + 31]) ∧
    ((MsgpackPacker.pack_string (List.replicate 32 120)).take 2 = [0xd9, 32]) ∧
    ((MsgpackPacker.pack_string (List.replicate 255 120)).take 2 = [0xd9, 255]) ∧
    ((MsgpackPacker.pack_string (List.replicate 256 120)).take 3 = [0xda, 1, 0]) ∧
    ((MsgpackPacker.pack_string (List.replicate 65535 120)).take 3 =
      [0xda, 255, 255]) ∧
    ((MsgpackPacker.pack_string (List.replicate 65536 120)).take 5 =
      [0xdb, 0, 1, 0, 0]) ∧
    (∀ s : Bytes, s.length ≤ 31 →
      MsgpackPacker.pack_string s = (0xa0 + s.length) :: s) ∧
    (∀ s : Bytes, 32 ≤ s.length → s.length ≤ 255 →
      MsgpackPacker.pack_string s = 0xd9 :: s.length :: s) ∧
    (∀ n : Nat, n ≤ 15 → MsgpackPacker.pack_array_header n = [0x90 + n]) ∧
    (∀ n : Nat, 16 ≤ n → n ≤ 65535 →
      MsgpackPacker.pack_array_header n = 0xdc :: beBytes 2 n) ∧
    (∀ n : Nat, 65536 ≤ n →
      MsgpackPacker.pack_array_header n = 0xdd :: beBytes 4 n) ∧
    (∀ n : Nat, n ≤ 15 → MsgpackPacker.pack_map_header n = [0x80 + n]) ∧
    (∀ n : Nat, 16 ≤ n → n ≤ 65535 →
      MsgpackPacker.pack_map_header n = 0xde :: beBytes 2 n) ∧
    (∀ n : Nat, 65536 ≤ n →
      MsgpackPacker.pack_map_header n = 0xdf :: beBytes 4 n) ∧
    (MsgpackPacker.pack_array_header 0 = [0x90]) ∧
    (msgpack_lite.packValue (.arr .nil) = [0x90]) ∧
    (MsgpackPacker.pack_array_header 16 ++
        (List.replicate 16 (MsgpackPacker.pack_int 0)).flatten =
      0xdc :: 0x00 :: 0x10 :: List.replicate 16 0x00) ∧
    (msgpack_lite.packValue (.arr (vlReplicate 16 (.int 0))) =
      0xdc :: 0x00 :: 0x10 :: List.replicate 16 0x00) ∧
    (∀ s : Bytes, 256 ≤ s.length →
      msgpack_lite.pack_string s =
        (0xda :: beBytes 2 (s.length % 65536)) ++ s) := by
  refine ⟨?_, ?_, ?_, ?_, ?_, ?_, mp_pack_string_fixstr, mp_pack_string_str8,
    ?_, ?_, ?_, ?_, ?_, ?_, rfl, rfl, rfl, rfl, lite_pack_string_above255⟩
  · rw [mp_pack_string_fixstr _ (by rw [List.length_replicate] <;> norm_num)]
    rw [List.length_replicate]
    norm_num [List.take]
  · rw [mp_pack_string_str8 _ (by rw [List.length_replicate] <;> norm_num)
      (by rw [List.length_replicate] <;> norm_num)]
    rw [List.length_replicate]
    norm_num [List.take]
  · rw [mp_pack_string_str8 _ (by rw [List.length_replicate] <;> norm_num)
      (by rw [List.length_replicate] <;> norm_num)]
    rw [List.length_replicate]
    norm_num [List.take]
  · rw [mp_pack_string_str16 _ (by rw [List.length_replicate] <;> norm_num)
      (by rw [List.length_replicate] <;> norm_num)]
    rw [List.length_replicate]
    norm_num [beBytes, List.take]
  · rw [mp_pack_string_str16 _ (by rw [List.length_replicate] <;> norm_num)
      (by rw [List.length_replicate] <;> norm_num)]
    rw [List.length_replicate]
    norm_num [beBytes, List.take]
  · rw [mp_pack_string_str32 _ (by rw [List.length_replicate] <;> norm_num)]
    rw [List.length_replicate]
    norm_num [beBytes, List.take]
  · intro n h
    rw [MsgpackPacker.pack_array_header, if_pos h]
  · intro n h1 h2
    rw [MsgpackPacker.pack_array_header, if_neg (by omega), if_pos h2]
  · intro n h
    rw [MsgpackPacker.pack_array_header, if_neg (by omega), if_neg (by omega)]
  · intro n h
    rw [MsgpackPacker.pack_map_header, if_pos h]
  · intro n h1 h2
    rw [MsgpackPacker.pack_map_header, if_neg (by omega), if_pos h2]
  · intro n h
    rw [MsgpackPacker.pack_map_header, if_neg (by omega), if_neg (by omega)]

theorem c3_size_class_selection_witness :
    (MsgpackPacker.pack_string [97, 98] = (0xa0 + 2) :: [97, 98]) ∧
    (MsgpackPacker.pack_array_header 7 = [0x90 + 7]) ∧
    (MsgpackPacker.pack_array_header 300 = 0xdc :: beBytes 2 300) ∧
    (MsgpackPacker.pack_map_header 70000 = 0xdf :: beBytes 4 70000) :=
  ⟨c3_size_class_selection.2.2.2.2.2.2.1 [97, 98] (by decide),
   c3_size_class_selection.2.2.2.2.2.2.2.2.1 7 (by decide),
   c3_size_class_selection.2.2.2.2.2.2.2.2.2.1 300 (by decide) (by decide),
   c3_size_class_selection.2.2.2.2.2.2.2.2.2.2.2.2.2.1 70000 (by decide)⟩

theorem toI64_emod {i : Int} (hlo : -9223372036854775808 ≤ i)
    (hhi : i ≤ 9223372036854775807) :
    toI64 (i % 18446744073709551616).toNat = i := by
  simp only [toI64]
  split_ifs <;> omega

/-- **C4 counterexample.** The claim asserts `pack_int` always chooses an
encoding that losslessly represents any 64-bit value, and cites both
packers; but `msgpack_lite::Packer::pack_int` (src/unnamed/part_009) has no
64-bit case: its final branch truncates to the low 32 bits, so `2^31` and
`-2^31` share one encoding. -/
theorem c4_counterexample :
    msgpack_lite.pack_int 2147483648 = msgpack_lite.pack_int (-2147483648) ∧
    (2147483648 : Int) ≠ (-2147483648 : Int) :=
  ⟨rfl, by decide⟩

/-- The full-ladder packer is lossless on the whole `int64_t` range: the
reference decoder reads back exactly the packed value. -/
theorem decodeIntEnc_mp_pack_int (v : Int) (hlo : -9223372036854775808 ≤ v)
    (hhi : v ≤ 9223372036854775807) :
    decodeIntEnc (MsgpackPacker.pack_int v) = some v := by
  rw [MsgpackPacker.pack_int]
  split_ifs with h1 h2 h3 h4 h5
  · simp only [decodeIntEnc]
    rw [if_pos (by omega)]
    simp only [Option.some.injEq]
    omega
  · simp only [decodeIntEnc]
    rw [if_neg (by omega),
      if_pos (by simp only [Bool.and_eq_true, decide_eq_true_eq]; omega)]
    simp only [Option.some.injEq]
    omega
  · simp only [decodeIntEnc]
    rw [msgpack_lite.toI8_emod (by omega) (by omega)]
  · have hm : (v % 65536).toNat < 65536 := by omega
    simp only [beBytes]
    norm_num
    simp only [decodeIntEnc]
    have hx : (v % 65536).toNat / 256 % 256 * 256 + (v % 65536).toNat % 256 =
        (v % 65536).toNat := by omega
    rw [hx, msgpack_lite.toI16_emod (by omega) (by omega)]
  · have hm : (v % 4294967296).toNat < 4294967296 := by omega
    simp only [beBytes]
    norm_num
    simp only [decodeIntEnc]
    have hx : (v % 4294967296).toNat / 16777216 % 256 * 16777216 +
        (v % 4294967296).toNat / 65536 % 256 * 65536 +
        (v % 4294967296).toNat / 256 % 256 * 256 +
        (v % 4294967296).toNat % 256 = (v % 4294967296).toNat := by omega
    rw [hx, msgpack_lite.toI32_emod (by omega) (by omega)]
  · have hm : (v % 18446744073709551616).toNat < 18446744073709551616 := by
      omega
    simp only [beBytes]
    norm_num
    simp only [decodeIntEnc]
    have hx : ((((((((v % 18446744073709551616).toNat / 72057594037927936 %
        256 * 256 +
        (v % 18446744073709551616).toNat / 281474976710656 % 256) * 256 +
        (v % 18446744073709551616).toNat / 1099511627776 % 256) * 256 +
        (v % 18446744073709551616).toNat / 4294967296 % 256) * 256 +
        (v % 18446744073709551616).toNat / 16777216 % 256) * 256 +
        (v % 18446744073709551616).toNat / 65536 % 256) * 256 +
        (v % 18446744073709551616).toNat / 256 % 256) * 256 +
        (v % 18446744073709551616).toNat % 256) =
        (v % 18446744073709551616).toNat := by omega
    rw [hx, toI64_emod (by omega) (by omega)]

/-- The 32-bit-capped packer is lossless on the `int32_t` range. -/
theorem decodeIntEnc_lite_pack_int (v : Int) (hlo : -2147483648 ≤ v)
    (hhi : v ≤ 2147483647) :
    decodeIntEnc (msgpack_lite.pack_int v) = some v := by
  rw [msgpack_lite.pack_int]
  split_ifs with h1 h2 h3 h4
  · simp only [decodeIntEnc]
    rw [if_pos (by omega)]
    simp only [Option.some.injEq]
    omega
  · simp only [decodeIntEnc]
    rw [if_neg (by omega),
      if_pos (by simp only [Bool.and_eq_true, decide_eq_true_eq]; omega)]
    simp only [Option.some.injEq]
    omega
  · simp only [decodeIntEnc]
    rw [msgpack_lite.toI8_emod (by omega) (by omega)]
  · have hm : (v % 65536).toNat < 65536 := by omega
    simp only [beBytes]
    norm_num
    simp only [decodeIntEnc]
    have hx : (v % 65536).toNat / 256 % 256 * 256 + (v % 65536).toNat % 256 =
        (v % 65536).toNat := by omega
    rw [hx, msgpack_lite.toI16_emod (by omega) (by omega)]
  · have hm : (v % 4294967296).toNat < 4294967296 := by omega
    simp only [beBytes]
    norm_num
    simp only [decodeIntEnc]
    have hx : (v % 4294967296).toNat / 16777216 % 256 * 16777216 +
        (v % 4294967296).toNat / 65536 % 256 * 65536 +
        (v % 4294967296).toNat / 256 % 256 * 256 +
        (v % 4294967296).toNat % 256 = (v % 4294967296).toNat := by omega
    rw [hx, msgpack_lite.toI32_emod (by omega) (by omega)]

/-- **C4 (amended).** Integer size-class selection.  For `MsgpackPacker`
(src/unnamed/part_008) exactly as claimed: every `int64_t` value is encoded
losslessly, choosing single-byte fixint forms for `0..127` and `-32..-1` and
otherwise the smallest sufficient signed width `0xd0`/`0xd1`/`0xd2`/`0xd3`;
all claimed boundary pairs select the documented tag with exact bytes, in
both packers.  For `msgpack_lite.Packer`, losslessness holds exactly on the
`int32_t` range: beyond it the final branch truncates to 32 bits (see the
counterexample). -/
theorem c4_int_size_class :
    (∀ v : Int, -9223372036854775808 ≤ v → v ≤ 9223372036854775807 →
      decodeIntEnc (MsgpackPacker.pack_int v) = some v) ∧
    (∀ v : Int, -32 ≤ v → v ≤ 127 → (MsgpackPacker.pack_int v).length = 1) ∧
    (∀ v : Int, -128 ≤ v → v < -32 → (MsgpackPacker.pack_int v).length = 2) ∧
    (∀ v : Int, (-32768 ≤ v ∧ v < -128) ∨ (127 < v ∧ v ≤ 32767) →
      (MsgpackPacker.pack_int v).length = 3) ∧
    (∀ v : Int, (-2147483648 ≤ v ∧ v < -32768) ∨ (32767 < v ∧ v ≤ 2147483647) →
      (MsgpackPacker.pack_int v).length = 5) ∧
    (∀ v : Int, v < -2147483648 ∨ 2147483647 < v →
      (MsgpackPacker.pack_int v).length = 9) ∧
    (MsgpackPacker.pack_int 127 = [127] ∧
      msgpack_lite.pack_int 127 = [127]) ∧
    (MsgpackPacker.pack_int 128 = [0xd1, 0x00, 0x80] ∧
      msgpack_lite.pack_int 128 = [0xd1, 0x00, 0x80]) ∧
    (MsgpackPacker.pack_int (-32) = [0xe0] ∧
      msgpack_lite.pack_int (-32) = [0xe0]) ∧
    (MsgpackPacker.pack_int (-33) = [0xd0, 0xdf] ∧
      msgpack_lite.pack_int (-33) = [0xd0, 0xdf]) ∧
    (MsgpackPacker.pack_int (-128) = [0xd0, 0x80] ∧
      msgpack_lite.pack_int (-128) = [0xd0, 0x80]) ∧
    (MsgpackPacker.pack_int (-129) = [0xd1, 0xff, 0x7f] ∧
      msgpack_lite.pack_int (-129) = [0xd1, 0xff, 0x7f]) ∧
    (MsgpackPacker.pack_int 32767 = [0xd1, 0x7f, 0xff] ∧
      msgpack_lite.pack_int 32767 = [0xd1, 0x7f, 0xff]) ∧
    (MsgpackPacker.pack_int 32768 = [0xd2, 0x00, 0x00, 0x80, 0x00] ∧
      msgpack_lite.pack_int 32768 = [0xd2, 0x00, 0x00, 0x80, 0x00]) ∧
    (MsgpackPacker.pack_int (-32768) = [0xd1, 0x80, 0x00] ∧
      msgpack_lite.pack_int (-32768) = [0xd1, 0x80, 0x00]) ∧
    (MsgpackPacker.pack_int (-32769) = [0xd2, 0xff, 0xff, 0x7f, 0xff] ∧
      msgpack_lite.pack_int (-32769) = [0xd2, 0xff, 0xff, 0x7f, 0xff]) ∧
    (∀ v : Int, -2147483648 ≤ v → v ≤ 2147483647 →
      decodeIntEnc (msgpack_lite.pack_int v) = some v) := by
  refine ⟨decodeIntEnc_mp_pack_int, ?_, ?_, ?_, ?_, ?_,
    ⟨rfl, rfl⟩, ⟨rfl, rfl⟩, ⟨rfl, rfl⟩, ⟨rfl, rfl⟩, ⟨rfl, rfl⟩, ⟨rfl, rfl⟩,
    ⟨rfl, rfl⟩, ⟨rfl, rfl⟩, ⟨rfl, rfl⟩, ⟨rfl, rfl⟩,
    decodeIntEnc_lite_pack_int⟩
  · intro v hl hh
    rw [MsgpackPacker.pack_int]
    split_ifs <;>
      simp only [List.length_cons, List.length_nil, beBytes_length] <;> omega
  · intro v hl hh
    rw [MsgpackPacker.pack_int]
    split_ifs <;>
      simp only [List.length_cons, List.length_nil, beBytes_length] <;> omega
  · intro v h
    rw [MsgpackPacker.pack_int]
    split_ifs <;>
      simp only [List.length_cons, List.length_nil, beBytes_length] <;> omega
  · intro v h
    rw [MsgpackPacker.pack_int]
    split_ifs <;>
      simp only [List.length_cons, List.length_nil, beBytes_length] <;> omega
  · intro v h
    rw [MsgpackPacker.pack_int]
    split_ifs <;>
      simp only [List.length_cons, List.length_nil, beBytes_length] <;> omega

theorem c4_int_size_class_witness :
    decodeIntEnc (MsgpackPacker.pack_int 3000000000) = some 3000000000 ∧
    (MsgpackPacker.pack_int 200).length = 3 ∧
    decodeIntEnc (msgpack_lite.pack_int (-1000)) = some (-1000) :=
  ⟨c4_int_size_class.1 3000000000 (by decide) (by decide),
   c4_int_size_class.2.2.2.1 200 (Or.inr (by decide)),
   c4_int_size_class.2.2.2.2.2.2.2.2.2.2.2.2.2.2.2.2 (-1000) (by decide)
     (by decide)⟩

/-! ## Value accessor behaviour (C7) -/
theorem ValueList.get_eq_none : ∀ (vs : ValueList) (idx : Nat),
    vs.length ≤ idx → vs.get idx = none
  | .nil, _, _ => rfl
  | .cons v tl, 0, h => by
    simp only [ValueList.length] at h
    omega
  | .cons v tl, n + 1, h => by
    simp only [ValueList.length] at h
    exact ValueList.get_eq_none tl n (by omega)

/-- **C7 counterexample.** The claim asserts that accessing a `Value` as a
variant that does not match its stored type returns a caller-visible Nil
sentinel rather than raising; but `as_bool` on a stored int is
`std::get<bool>` on the wrong alternative, which throws
`std::bad_variant_access` — the error outcome, not a sentinel. -/
theorem c7_counterexample :
    (Value.int 0).as_bool = .error .typeMismatch := rfl

/-- **C7 (amended).** Value accessor behaviour: `operator[]` with a string
key or an index, `has` and `size()` fail safely — off-type access, an
absent key or an out-of-bounds index yield the `nil` sentinel (resp.
`false`/`0`) — but the `as_X` accessors on a mismatched variant raise
(`std::get` throws `std::bad_variant_access`); `as_double` additionally
accepts a stored int, returning its cast. -/
theorem c7_accessor_safety :
    (∀ v : Value, v.is_bool = false → v.as_bool = .error .typeMismatch) ∧
    (∀ v : Value, v.is_int = false → v.as_int = .error .typeMismatch) ∧
    (∀ v : Value, v.is_int = false → v.is_double = false →
      v.as_double = .error .typeMismatch) ∧
    (∀ i : Int, (Value.int i).as_double = .ok (.ofInt i)) ∧
    (∀ v : Value, v.is_string = false → v.as_string = .error .typeMismatch) ∧
    (∀ v : Value, v.is_array = false → v.as_array = .error .typeMismatch) ∧
    (∀ v : Value, v.is_map = false → v.as_map = .error .typeMismatch) ∧
    (∀ (v : Value) (key : Bytes), v.is_map = false → v.getKey key = .nil) ∧
    (∀ (m : EntryList) (key : Bytes), m.find key = none →
      (Value.map m).getKey key = .nil) ∧
    (∀ (v : Value) (idx : Nat), v.is_array = false → v.getIndex idx = .nil) ∧
    (∀ (vs : ValueList) (idx : Nat), vs.length ≤ idx →
      (Value.arr vs).getIndex idx = .nil) ∧
    (∀ v : Value, v.is_array = false → v.is_map = false → v.size = 0) ∧
    (∀ (v : Value) (key : Bytes), v.is_map = false → v.has key = false) := by
  refine ⟨?_, ?_, ?_, ?_, ?_, ?_, ?_, ?_, ?_, ?_, ?_, ?_, ?_⟩
  · intro v h
    cases v <;> first | rfl | simp [Value.is_bool] at h
  · intro v h
    cases v <;> first | rfl | simp [Value.is_int] at h
  · intro v h1 h2
    cases v with
    | nil => rfl
    | bool b => rfl
    | int i => simp [Value.is_int] at h1
    | double bits => simp [Value.is_double] at h2
    | str s => rfl
    | arr vs => rfl
    | map m => rfl
  · intro i
    rfl
  · intro v h
    cases v <;> first | rfl | simp [Value.is_string] at h
  · intro v h
    cases v <;> first | rfl | simp [Value.is_array] at h
  · intro v h
    cases v <;> first | rfl | simp [Value.is_map] at h
  · intro v key h
    cases v <;> first | rfl | simp [Value.is_map] at h
  · intro m key h
    simp [Value.getKey, h]
  · intro v idx h
    cases v <;> first | rfl | simp [Value.is_array] at h
  · intro vs idx h
    simp [Value.getIndex, ValueList.get_eq_none vs idx h]
  · intro v h1 h2
    cases v with
    | nil => rfl
    | bool b => rfl
    | int i => rfl
    | double bits => rfl
    | str s => rfl
    | arr vs => simp [Value.is_array] at h1
    | map m => simp [Value.is_map] at h2
  · intro v key h
    cases v <;> first | rfl | simp [Value.is_map] at h

theorem c7_accessor_safety_witness :
    Value.nil.as_bool = .error .typeMismatch ∧
    (Value.int 7).getKey [97] = .nil ∧
    (Value.arr (.cons (.int 1) .nil)).getIndex 5 = .nil ∧
    (Value.str [120]).size = 0 :=
  ⟨c7_accessor_safety.1 _ rfl,
   c7_accessor_safety.2.2.2.2.2.2.2.1 _ [97] rfl,
   c7_accessor_safety.2.2.2.2.2.2.2.2.2.2.1 _ 5 (by decide),
   c7_accessor_safety.2.2.2.2.2.2.2.2.2.2.2.1 _ rfl rfl⟩

namespace msgpack_lite

/-- One step of the map-entry loop, phrased for arbitrary positive fuel and
count. -/
theorem unpackMapF_step (fuel n : Nat) (m : EntryList) (bs : Bytes)
    (hf : 1 ≤ fuel) (hn : 1 ≤ n) :
    unpackMapF fuel n m bs = (do
      let (key, bs) ← unpackF (fuel - 1) bs
      let (val, bs) ← unpackF (fuel - 1) bs
      let m2 := match key with
        | .str s => mapInsert m s val
        | _ => m
      unpackMapF (fuel - 1) (n - 1) m2 bs) := by
  obtain ⟨f, rfl⟩ : ∃ k, fuel = k + 1 := ⟨fuel - 1, by omega⟩
  obtain ⟨n2, rfl⟩ : ∃ k, n = k + 1 := ⟨n - 1, by omega⟩
  simp only [Nat.add_sub_cancel]
  exact unpackMapF_succ f n2 m bs

/-- The final single-entry round of the map loop, used by the two map
scenarios below. -/
theorem unpackMapF_one_entry (fuel : Nat) (s : Bytes) (v2 : Value)
    (rest : Bytes) (hs : wfStr s = true) (hv2 : wfValue v2 = true)
    (hfuel : 2 * ((pack_string s).length + (packValue v2).length) ≤ fuel) :
    unpackMapF fuel 1 .nil (pack_string s ++ (packValue v2 ++ rest)) =
      .ok (.map (.cons s v2 .nil), rest) := by
  have hpe : packEntries (.cons s v2 .nil) ++ rest =
      pack_string s ++ (packValue v2 ++ rest) := by
    simp [packEntries]
  rw [← hpe]
  have := unpackMapF_packEntries fuel (.cons s v2 .nil) .nil rest
    (by simp [wfEntries, hs, hv2]) rfl (fun _ _ _ _ => rfl)
    (by
      have hl : (packEntries (.cons s v2 .nil)).length =
          (pack_string s).length + (packValue v2).length := by
        simp [packEntries]
      omega)
  simpa [EntryList.length, EntryList.append] using this

/-- **C8.** During unpacking of a map, a key/value pair whose key does not
decode as a string is silently dropped: the bytes of both the key and the
value are consumed (the cursor stays aligned, as witnessed by the trailing
`rest` surviving untouched), no entry is added, and the retained entries are
exactly the string-keyed ones. -/
theorem c8_nonstring_keys_dropped (kv vv v2 : Value) (s : Bytes)
    (rest : Bytes) (hkv : wfValue kv = true) (hks : kv.is_string = false)
    (hvv : wfValue vv = true) (hs : wfStr s = true)
    (hv2 : wfValue v2 = true) :
    unpack (0x82 :: (packValue kv ++ (packValue vv ++ (pack_string s ++
      (packValue v2 ++ rest))))) = .ok (.map (.cons s v2 .nil), rest) := by
  have h1 := packValue_length_pos kv
  have h2 := packValue_length_pos vv
  have h3 := pack_string_length_pos s
  have h4 := packValue_length_pos v2
  show unpackF (2 * (0x82 :: (packValue kv ++ (packValue vv ++
    (pack_string s ++ (packValue v2 ++ rest))))).length + 1) _ = _
  rw [show 2 * (0x82 :: (packValue kv ++ (packValue vv ++ (pack_string s ++
      (packValue v2 ++ rest))))).length + 1 =
      (2 * (packValue kv ++ (packValue vv ++ (pack_string s ++
        (packValue v2 ++ rest)))).length + 2) + 1 by
    simp only [List.length_cons]
    omega]
  simp only [unpackF, read_byte_cons, bind_ok_eq]
  norm_num
  rw [unpackMapF_step _ _ _ _ (by omega) (by omega)]
  rw [show 2 * ((packValue kv).length + ((packValue vv).length + ((pack_string s).length + ((packValue v2).length + rest.length)))) + 2 - 1 = 2 * ((packValue kv).length + ((packValue vv).length + ((pack_string s).length + ((packValue v2).length + rest.length)))) + 1 by omega]
  rw [show (2 : Nat) - 1 = 1 by omega]
  rw [unpackF_packValue (2 * ((packValue kv).length + ((packValue vv).length + ((pack_string s).length + ((packValue v2).length + rest.length)))) + 1) kv
    (packValue vv ++ (pack_string s ++ (packValue v2 ++ rest))) hkv
    (by omega), bind_ok_eq]
  dsimp only
  rw [unpackF_packValue (2 * ((packValue kv).length + ((packValue vv).length + ((pack_string s).length + ((packValue v2).length + rest.length)))) + 1) vv
    (pack_string s ++ (packValue v2 ++ rest)) hvv (by omega), bind_ok_eq]
  dsimp only
  cases kv with
  | str s3 => simp [Value.is_string] at hks
  | nil => exact unpackMapF_one_entry _ s v2 rest hs hv2 (by omega)
  | bool b => exact unpackMapF_one_entry _ s v2 rest hs hv2 (by omega)
  | int i => exact unpackMapF_one_entry _ s v2 rest hs hv2 (by omega)
  | double bits => exact unpackMapF_one_entry _ s v2 rest hs hv2 (by omega)
  | arr vs => exact unpackMapF_one_entry _ s v2 rest hs hv2 (by omega)
  | map m => exact unpackMapF_one_entry _ s v2 rest hs hv2 (by omega)

/-- **C10.** When an encoded map declares `n` entries but a string key
occurs twice, the decoded map keeps one entry per distinct key, bound to the
value of the last occurrence in encoded order, so its size (1) is strictly
below the header count (2). -/
theorem c10_duplicate_keys_last_wins (s : Bytes) (v1 v2 : Value)
    (rest : Bytes) (hs : wfStr s = true) (hv1 : wfValue v1 = true)
    (hv2 : wfValue v2 = true) :
    unpack (0x82 :: (pack_string s ++ (packValue v1 ++ (pack_string s ++
      (packValue v2 ++ rest))))) = .ok (.map (.cons s v2 .nil), rest) ∧
    (EntryList.cons s v2 .nil).length = 1 ∧ (1 : Nat) < 2 := by
  refine ⟨?_, rfl, by omega⟩
  have h1 := pack_string_length_pos s
  have h2 := packValue_length_pos v1
  have h4 := packValue_length_pos v2
  show unpackF (2 * (0x82 :: (pack_string s ++ (packValue v1 ++
    (pack_string s ++ (packValue v2 ++ rest))))).length + 1) _ = _
  rw [show 2 * (0x82 :: (pack_string s ++ (packValue v1 ++ (pack_string s ++
      (packValue v2 ++ rest))))).length + 1 =
      (2 * (pack_string s ++ (packValue v1 ++ (pack_string s ++
        (packValue v2 ++ rest)))).length + 2) + 1 by
    simp only [List.length_cons]
    omega]
  simp only [unpackF, read_byte_cons, bind_ok_eq]
  norm_num
  rw [unpackMapF_step _ _ _ _ (by omega) (by omega)]
  rw [show 2 * ((pack_string s).length + ((packValue v1).length + ((pack_string s).length + ((packValue v2).length + rest.length)))) + 2 - 1 = 2 * ((pack_string s).length + ((packValue v1).length + ((pack_string s).length + ((packValue v2).length + rest.length)))) + 1 by omega]
  rw [show (2 : Nat) - 1 = 1 by omega]
  have hkey1 := unpackF_packValue (2 * ((pack_string s).length + ((packValue v1).length + ((pack_string s).length + ((packValue v2).length + rest.length)))) + 1) (.str s)
    (packValue v1 ++ (pack_string s ++ (packValue v2 ++ rest)))
    (by simpa [wfValue] using hs)
    (by
      simp only [packValue]
      omega)
  simp only [packValue] at hkey1
  rw [hkey1, bind_ok_eq]
  dsimp only
  rw [unpackF_packValue (2 * ((pack_string s).length + ((packValue v1).length + ((pack_string s).length + ((packValue v2).length + rest.length)))) + 1) v1
    (pack_string s ++ (packValue v2 ++ rest)) hv1 (by omega), bind_ok_eq]
  dsimp only
  rw [unpackMapF_step _ _ _ _ (by omega) (by omega)]
  rw [show 2 * ((pack_string s).length + ((packValue v1).length + ((pack_string s).length + ((packValue v2).length + rest.length)))) + 1 - 1 = 2 * ((pack_string s).length + ((packValue v1).length + ((pack_string s).length + ((packValue v2).length + rest.length)))) by omega]
  rw [show (1 : Nat) - 1 = 0 by omega]
  have hkey2 := unpackF_packValue (2 * ((pack_string s).length + ((packValue v1).length + ((pack_string s).length + ((packValue v2).length + rest.length))))) (.str s)
    (packValue v2 ++ rest) (by simpa [wfValue] using hs)
    (by
      simp only [packValue]
      omega)
  simp only [packValue] at hkey2
  rw [hkey2, bind_ok_eq]
  dsimp only
  rw [unpackF_packValue (2 * ((pack_string s).length + ((packValue v1).length + ((pack_string s).length + ((packValue v2).length + rest.length))))) v2 rest hv2 (by omega), bind_ok_eq]
  dsimp only
  rw [unpackMapF_zero]
  simp [mapInsert, strLt_irrefl]

/-- Witness for C8: an integer key `7` paired with `nil` is dropped; the
string key `"k"` with value `true` survives; the trailing byte `0x55` is
untouched. -/
theorem c8_nonstring_keys_dropped_witness :
    unpack (0x82 :: (packValue (.int 7) ++ (packValue .nil ++
      (pack_string [107] ++ (packValue (.bool true) ++ [0x55]))))) =
      .ok (.map (.cons [107] (.bool true) .nil), [0x55]) :=
  c8_nonstring_keys_dropped (.int 7) .nil (.bool true) [107] [0x55]
    (by decide) (by decide) (by decide) (by decide) (by decide)

/-- Witness for C10: key `"k"` bound first to `1` then to `2` decodes to the
single entry `"k" ↦ 2`. -/
theorem c10_duplicate_keys_last_wins_witness :
    unpack (0x82 :: (pack_string [107] ++ (packValue (.int 1) ++
      (pack_string [107] ++ (packValue (.int 2) ++ []))))) =
      .ok (.map (.cons [107] (.int 2) .nil), []) ∧
    (EntryList.cons [107] (Value.int 2) .nil).length = 1 ∧ (1 : Nat) < 2 :=
  c10_duplicate_keys_last_wins [107] (.int 1) (.int 2) []
    (by decide) (by decide) (by decide)

/-- **C1, counterexample.** The round-trip is not the identity on every
value: `pack_int` truncates `2^31` to the int32 form, so unpacking returns
`-2^31`, a different integer. -/
theorem c1_counterexample :
    unpack (packValue (.int 2147483648)) =
      .ok (.int (-2147483648), []) ∧ (2147483648 : Int) ≠ -2147483648 :=
  ⟨rfl, by decide⟩

/-- **C1 (amended).** Round-trip holds for every well-formed value: integers
within int32 range, doubles with 64-bit patterns, strings/arrays/maps of at
most 65535 elements with bytes below 256, and map keys strictly sorted (the
canonical form of `std::map`): `unpack (pack v) = (v, no bytes left)`. -/
theorem c1_roundtrip_amended (v : Value) (hwf : wfValue v = true) :
    unpack (packValue v) = .ok (v, []) :=
  unpack_packValue v hwf

/-- Witness for C1: the map `{"id": 42}` survives the round-trip. -/
theorem c1_roundtrip_amended_witness :
    unpack (packValue (.map (.cons [105, 100] (.int 42) .nil))) =
      .ok (.map (.cons [105, 100] (.int 42) .nil), []) :=
  c1_roundtrip_amended (.map (.cons [105, 100] (.int 42) .nil)) (by decide)

/-- **C2.** Bounds behaviour of the unpacker: (1) every proper prefix of a
well-formed packed value, cut at any byte offset, unpacks to the bounds
error; (2) with all bytes present the same input unpacks successfully, so no
corrupted value is returned silently; (3) a leading byte matching no handled
tag decodes to `nil` and consumes one byte rather than failing; (4) the
fuel-exhaustion error of the model is unreachable, so the only error the
unpacker ever raises is the bounds error. -/
theorem c2_bounds_safety :
    (∀ (v : Value) (k : Nat), wfValue v = true → k < (packValue v).length →
      unpack ((packValue v).take k) = .error .bounds) ∧
    (∀ (v : Value), wfValue v = true → unpack (packValue v) = .ok (v, [])) ∧
    (∀ (b : Nat) (bs : Bytes), unhandledTag b = true →
      unpack (b :: bs) = .ok (.nil, bs)) ∧
    (∀ (bs : Bytes), unpack bs ≠ .error .fuelOut) :=
  ⟨fun v k hwf hk => unpack_take_bounds v k hwf hk,
   fun v hwf => unpack_packValue v hwf,
   fun b bs h => unpack_unhandledTag b bs h,
   fun bs => unpack_ne_fuelOut bs⟩

/-- Witness for C2: the string `"ab"` truncated after one byte hits the
bounds error; packed `true` unpacks; the reserved tag `0xc1` decodes to
`nil` leaving the next byte; the empty buffer does not exhaust fuel. -/
theorem c2_bounds_safety_witness :
    unpack ((packValue (.str [97, 98])).take 1) = .error .bounds ∧
    unpack (packValue (.bool true)) = .ok (.bool true, []) ∧
    unpack [0xc1, 0x05] = .ok (.nil, [0x05]) ∧
    unpack [] ≠ .error .fuelOut :=
  ⟨c2_bounds_safety.1 (.str [97, 98]) 1 (by decide) (by decide),
   c2_bounds_safety.2.1 (.bool true) (by decide),
   c2_bounds_safety.2.2.1 0xc1 [0x05] (by decide),
   c2_bounds_safety.2.2.2 []⟩
end msgpack_lite

end JsBench
